import Mathlib

/-!
# Verification of the nca-to-nsp PFS0 archive builder

Shallow embedding of `pkg/nsp/nsp.go` (package `nsp`).  Byte buffers are
modelled as `List Nat` (each element a byte value), Go `uint32`/`uint64`
fields as `Nat` with explicit `% 2 ^ 32` / `% 2 ^ 64` where the Go code
performs fixed-width arithmetic, and the filesystem as a function from
paths (byte lists) to optional file contents.  Error values produced with
`fmt.Errorf` are modelled structurally: each constructor of `BuildError`
carries exactly the data interpolated into the corresponding message.
-/

namespace Nsp

/-- A filesystem path, as the byte string Go would hold. -/
abbrev Path := List Nat

/-- The filesystem visible to `os.Stat` / `os.Open`: maps a path to the
contents of the file there, or `none` when the path does not resolve
(missing file, permission error, ...). -/
abbrev FileSystem := Path → Option (List Nat)

/-- Models `os.FileInfo.Name()` for the stat result of `path`: the base
name, i.e. the bytes after the last `'/'` (byte 47). -/
def baseName (p : Path) : List Nat :=
  p.foldl (fun acc b => if b = 47 then [] else acc ++ [b]) []

/-- Go struct `partitionEntry` (nsp.go lines 45-60): metadata about one
file to be included in the NSP. -/
structure partitionEntry where
  /-- Filesystem path to the source file. -/
  path : Path
  /-- Filename to be stored in the NSP (`string`, held as its bytes). -/
  name : List Nat
  /-- Size of the file in bytes (`uint64`). -/
  size : Nat
  /-- Absolute position of file data in the NSP (`uint64`). -/
  dataOffset : Nat
  /-- Offset of this file's name in the string table (`uint32`). -/
  stringOffset : Nat
  deriving Repr, DecidableEq, Inhabited

/-- Go struct `Builder` (nsp.go lines 23-42).  Only the fields that affect
the bytes of the produced archive are modelled: `OutputPath` merely names
the output file, and `ShowProgress` / `ProgressUpdateFrequency` /
`lastProgressWidth` only affect terminal output, never the archive. -/
structure Builder where
  /-- Buffer size used for file I/O operations (`BufferSize`, a Go `int`;
  `Build` would panic on a negative value at `make([]byte, b.BufferSize)`,
  so the model uses `Nat`). -/
  BufferSize : Nat
  /-- The collection of files to be included in the NSP (`partEntries`). -/
  partEntries : List partitionEntry
  deriving Repr, DecidableEq

/-- The bytes of the magic constant `PFS0Magic = "PFS0"` (nsp.go line 15). -/
def PFS0Magic : List Nat := [80, 70, 83, 48]

/-- Little-endian encoding of `v` into `w` bytes, as
`binary.LittleEndian.PutUint32/PutUint64` produce (the value is taken
modulo `2 ^ (8 * w)` by construction). -/
def leBytes : Nat → Nat → List Nat
  | 0, _ => []
  | w + 1, v => v % 256 :: leBytes w (v / 256)

/-- Four-byte little-endian encoding (`binary.LittleEndian.PutUint32`). -/
def le32 (v : Nat) : List Nat := leBytes 4 v

/-- Eight-byte little-endian encoding (`binary.LittleEndian.PutUint64`). -/
def le64 (v : Nat) : List Nat := leBytes 8 v

/-- Read back a little-endian `uint32` at offset `off` of a byte buffer
(out-of-range bytes read as 0).  Used to state what a header "declares". -/
def readLe32 (l : List Nat) (off : Nat) : Nat :=
  l.getD off 0 + 256 * l.getD (off + 1) 0 + 256 ^ 2 * l.getD (off + 2) 0 +
    256 ^ 3 * l.getD (off + 3) 0

/-- In-place write into a fixed-size byte buffer: models both Go's
`copy(buf[pos:], data)` and `binary.LittleEndian.PutUintN(buf[pos:], v)`
(the data is truncated at the end of the buffer, as `copy` does; the
`PutUintN` calls in `generateHeader` are always in range). -/
def writeAt (buf : List Nat) (pos : Nat) (data : List Nat) : List Nat :=
  buf.take pos ++ data.take (buf.length - pos) ++ buf.drop (pos + data.length)

/-- The slice `l[off : off + len]` of a byte buffer. -/
def sliceAt (l : List Nat) (off len : Nat) : List Nat :=
  (l.drop off).take len

/-- Go string comparison `a < b` (byte-wise lexicographic), as used by the
sort in `Build` (nsp.go lines 94-96). -/
def nameLt : List Nat → List Nat → Bool
  | [], [] => false
  | [], _ :: _ => true
  | _ :: _, [] => false
  | a :: as, b :: bs => decide (a < b) || (decide (a = b) && nameLt as bs)

/-- Reflexive closure of `nameLt`: `a ≤ b` on Go strings. -/
def nameLe (a b : List Nat) : Bool := !(nameLt b a)

/-- Ordering of entries used by `sort.Slice` in `Build`: by stored name. -/
def entryLe (a b : partitionEntry) : Prop := nameLe a.name b.name = true

instance : DecidableRel entryLe := fun a b =>
  inferInstanceAs (Decidable (nameLe a.name b.name = true))

/-- Models `sort.Slice(b.partEntries, less)` with
`less i j := name i < name j` (nsp.go lines 94-96).  `sort.Slice` is not
stable and leaves the relative order of equal names unspecified; the model
fixes the stable result, one of the permitted outcomes. -/
def sortEntries (es : List partitionEntry) : List partitionEntry :=
  List.insertionSort entryLe es

/-- `stringTableSize` as computed at the top of `generateHeader`
(nsp.go lines 167-170): the sum of `len(name) + 1` over all entries. -/
def nameTableSize (es : List partitionEntry) : Nat :=
  es.foldr (fun e acc => e.name.length + 1 + acc) 0

/-- Sum of the `size` fields of a list of entries. -/
def sumSizes (es : List partitionEntry) : Nat :=
  es.foldr (fun e acc => e.size + acc) 0

/-- The padding `generateHeader` adds to align the header to 16 bytes
(nsp.go lines 179-184). -/
def paddingOf (es : List partitionEntry) : Nat :=
  let headerSize := 16 + es.length * 24 + nameTableSize es
  if headerSize % 16 > 0 then 16 - headerSize % 16 else 0

/-- The total header size including padding, as computed by
`generateHeader`. -/
def headerSizeOf (es : List partitionEntry) : Nat :=
  16 + es.length * 24 + nameTableSize es + paddingOf es

/-- The loop of `generateHeader` that serializes the partition entry table
(nsp.go lines 203-244).  `pos` is `headerPosition`, `strOff` is
`stringOffset` (`uint32`), `fdOff` is `fileDataOffset` (`uint64`) and
`base` is `fileDataBaseOffset`.  Returns the updated buffer together with
the entries carrying their newly assigned `dataOffset`/`stringOffset`
(the Go loop mutates the entries through a pointer). -/
def entryTableLoop (base : Nat) :
    List partitionEntry → List Nat → Nat → Nat → Nat →
      List Nat × List partitionEntry
  | [], buf, _, _, _ => (buf, [])
  | e :: rest, buf, pos, strOff, fdOff =>
    let buf := writeAt buf pos (le64 fdOff)
    let e := { e with dataOffset := (base + fdOff) % 2 ^ 64 }
    let fdOff' := (fdOff + e.size) % 2 ^ 64
    let buf := writeAt buf (pos + 8) (le64 e.size)
    let buf := writeAt buf (pos + 16) (le32 strOff)
    let e := { e with stringOffset := strOff }
    let strOff' := (strOff + (e.name.length + 1)) % 2 ^ 32
    let buf := writeAt buf (pos + 20) (le32 0)
    let (buf', rest') := entryTableLoop base rest buf (pos + 24) strOff' fdOff'
    (buf', e :: rest')

/-- The loop of `generateHeader` that writes the string table
(nsp.go lines 246-253): for each entry, copy its name bytes at
`stringTableOffset + stringOffset` (null terminators are implicit in the
zero-filled buffer). -/
def stringTableLoop (stOff : Nat) :
    List partitionEntry → List Nat → List Nat
  | [], buf => buf
  | e :: rest, buf =>
    stringTableLoop stOff rest (writeAt buf (stOff + e.stringOffset) e.name)

/-- Go `generateHeader` (nsp.go lines 166-256): builds the PFS0 header for
the given entry list and assigns each entry its absolute `dataOffset` and
its `stringOffset`.  Returns the header bytes and the updated entries. -/
def generateHeader (entries : List partitionEntry) :
    List Nat × List partitionEntry :=
  let stringTableSize := nameTableSize entries
  let headerMetadataSize := 16
  let entryCount := entries.length
  let partitionTableSize := entryCount * 24
  let headerSize0 := headerMetadataSize + partitionTableSize + stringTableSize
  let padding := if headerSize0 % 16 > 0 then 16 - headerSize0 % 16 else 0
  let headerSize := headerSize0 + padding
  let buf0 := List.replicate headerSize 0
  let buf1 := writeAt buf0 0 PFS0Magic
  let buf2 := writeAt buf1 4 (le32 entryCount)
  let buf3 := writeAt buf2 8 (le32 (stringTableSize + padding))
  let buf4 := writeAt buf3 12 (le32 0)
  let (buf5, entries') := entryTableLoop headerSize entries buf4 16 0 0
  let stringTableOffset := headerMetadataSize + partitionTableSize
  let buf6 := stringTableLoop stringTableOffset entries' buf5
  (buf6, entries')

/-- Structural model of the `fmt.Errorf` values the builder can return;
each constructor carries the data interpolated into the message text. -/
inductive BuildError where
  /-- "failed to add file %s: %w" (stat failure in `AddFile`). -/
  | statFailed (path : Path)
  /-- "no input files provided" (`Build` with no entries). -/
  | emptyInput
  /-- "failed to open input file %s: %w" (`copyFileToNSP`). -/
  | openFailed (path : Path)
  /-- "failed to seek in output file %s: %w" (`copyFileToNSP`; in the
  model a seek only fails when `int64(dataOffset)` is negative, i.e. the
  offset is at least `2 ^ 63`). -/
  | seekFailed (path : Path)
  /-- "size mismatch for file %s during write: expected %d bytes, wrote
  %d bytes" (`copyFileToNSP`, with the expected and actual counts). -/
  | sizeMismatch (path : Path) (expected actual : Nat)
  deriving Repr, DecidableEq

/-- Go `AddFile` (nsp.go lines 63-76): stat the path; on failure return
the error and leave the builder unchanged, otherwise append one entry
with the stat's base name and size.  `info.Size()` is an `int64` stored
into the `uint64` field, modelled by `% 2 ^ 64`. -/
def AddFile (fs : FileSystem) (b : Builder) (path : Path) :
    Builder × Option BuildError :=
  match fs path with
  | none => (b, some (.statFailed path))
  | some contents =>
    ({ b with
        partEntries := b.partEntries ++
          [{ path := path, name := baseName path,
             size := contents.length % 2 ^ 64,
             dataOffset := 0, stringOffset := 0 }] },
     none)

/-- A write to the single output file descriptor after a seek to `pos`:
bytes `[pos, pos + data.length)` become `data`, a gap beyond the previous
end of file reads back as zeros (POSIX sparse-file semantics), and bytes
past the written range are preserved. -/
def writeFileAt (out : List Nat) (pos : Nat) (data : List Nat) : List Nat :=
  out.take pos ++ List.replicate (pos - out.length) 0 ++ data ++
    out.drop (pos + data.length)

/-- The chunked copy loop of `copyFileToNSP` (nsp.go lines 296-330):
repeatedly read up to `bs` bytes from the source and write them at the
output file's current position; stop when a read returns 0 bytes.
Returns the output file contents and the total byte count written
(`bytesWritten`, accumulated here as a `Nat`; the Go `uint64` wrap is
applied where the count is used).  Reads from the modelled source never
fail, so the read-error branch is not represented.  The recursion is
structural on a `fuel` argument; every iteration consumes at least one
source byte, so with `fuel = src.length` (as `copyFileToNSP` passes) the
fuel can only run out once the source is exhausted, where the loop stops
anyway. -/
def copyLoop (bs : Nat) : Nat → List Nat → List Nat → Nat → List Nat × Nat
  | 0, _, out, _ => (out, 0)
  | fuel + 1, src, out, pos =>
    let n := min bs src.length
    if n = 0 then (out, 0)
    else
      let out' := writeFileAt out pos (src.take bs)
      let (outR, written) := copyLoop bs fuel (src.drop bs) out' (pos + n)
      (outR, n + written)

/-- Go `copyFileToNSP` (nsp.go lines 260-342): open the source (error if
the filesystem has nothing at the path), seek the output file to the
entry's absolute `dataOffset` (`int64(dataOffset)` is negative, hence the
seek fails, exactly when the offset is at least `2 ^ 63`), stream the
source in chunks, then fail unless the byte count written equals the
recorded size.  Progress reporting only writes to the terminal and is not
modelled.  Returns the resulting output-file contents and the error, if
any. -/
def copyFileToNSP (fs : FileSystem) (bs : Nat) (out : List Nat)
    (e : partitionEntry) : List Nat × Option BuildError :=
  match fs e.path with
  | none => (out, some (.openFailed e.path))
  | some contents =>
    if 2 ^ 63 ≤ e.dataOffset then (out, some (.seekFailed e.path))
    else
      let (out', bytesWritten) :=
        copyLoop bs contents.length contents out e.dataOffset
      if bytesWritten % 2 ^ 64 ≠ e.size then
        (out', some (.sizeMismatch e.path e.size (bytesWritten % 2 ^ 64)))
      else (out', none)

/-- The copy phase of `Build` (nsp.go lines 136-153): run
`copyFileToNSP` on each entry in order, stopping at the first error. -/
def copyAll (fs : FileSystem) (bs : Nat) :
    List partitionEntry → List Nat → List Nat × Option BuildError
  | [], out => (out, none)
  | e :: rest, out =>
    match copyFileToNSP fs bs out e with
    | (out', some err) => (out', some err)
    | (out', none) => copyAll fs bs rest out'

/-- Outcome of a `Build` call: the final contents of the output file
(`none` when the file was never created) and the returned error, if
any. -/
structure BuildOutcome where
  file : Option (List Nat)
  err : Option BuildError
  deriving Repr, DecidableEq

/-- Go `Build` (nsp.go lines 89-156): refuse an empty entry list before
touching the output path; otherwise sort the entries by name, generate
the header, create/truncate the output file, write the header and copy
every source file to its offset.  `os.Create` and the header write are
the only output-file operations with no failure condition in the model
(their error branches depend on the host filesystem, not on this
package's logic), so the header short-write branch (nsp.go lines 113-121)
is unreachable here. -/
def Build (fs : FileSystem) (b : Builder) : BuildOutcome :=
  if b.partEntries.length = 0 then ⟨none, some .emptyInput⟩
  else
    let sorted := sortEntries b.partEntries
    let (header, entries) := generateHeader sorted
    let (out, err) := copyAll fs b.BufferSize entries header
    ⟨some out, err⟩

/-! ## Progress bar (`drawProgressBar`, nsp.go lines 351-384)

The Go code computes `percent` and the filled-cell count in `float64`.
The model uses exact rational arithmetic with truncation toward zero for
the `int(...)` conversion; at the inputs of the claims below every
intermediate `float64` value (`50/200 = 0.25`, `0.25*50 = 12.5`) is
exactly representable, so the rational model agrees with the float
computation there, and the range bounds proved about it do not depend on
rounding. -/

/-- The divisor actually used by `drawProgressBar`: `totalSize`, with 0
replaced by 1 to avoid division by zero (nsp.go lines 362-364). -/
def effectiveTotal (totalSize : Nat) : Nat :=
  if totalSize = 0 then 1 else totalSize

/-- Go `float64` to `int` conversion: truncation toward zero. -/
def truncToInt (q : ℚ) : ℤ := if q < 0 then ⌈q⌉ else ⌊q⌋

/-- `percent := float64(currentSize) / float64(totalSize)` after the
zero-total guard. -/
def percentOf (currentSize totalSize : Nat) : ℚ :=
  (currentSize : ℚ) / (effectiveTotal totalSize : ℚ)

/-- `filled := min(int(percent*float64(width)), width)`
(nsp.go line 367). -/
def filledCells (currentSize totalSize : Nat) (width : ℤ) : ℤ :=
  min (truncToInt (percentOf currentSize totalSize * (width : ℚ))) width

/-- The count of blank cells `width - filled` drawn by
`strings.Repeat(" ", width-filled)` (nsp.go line 369). -/
def blankCells (currentSize totalSize : Nat) (width : ℤ) : ℤ :=
  width - filledCells currentSize totalSize width

/-! ## Layout descriptions

The definitions below spell out the header layout in the spec's terms
(explicit concatenation of regions, offsets as plain sums over prior
entries); the theorems relate `generateHeader` to them. -/

/-- Rounding up to the next multiple of 16, as the spec describes the
final header size. -/
def roundUp16 (n : Nat) : Nat := (n + 15) / 16 * 16

/-- The 16-byte header prologue: magic, little-endian u32 entry count,
little-endian u32 declared name-table size, zero u32. -/
def prologueBytes (entryCount declaredNts : Nat) : List Nat :=
  PFS0Magic ++ le32 entryCount ++ le32 declaredNts ++ le32 0

/-- One 24-byte partition entry record. -/
def recordBytes (relOff size strOff : Nat) : List Nat :=
  le64 relOff ++ le64 size ++ le32 strOff ++ le32 0

/-- The bytes of the partition entry table as `entryTableLoop` writes
them, with the loop's wrapping accumulators (`strOff` a `uint32`,
`fdOff` a `uint64`). -/
def recordsFrom (strOff fdOff : Nat) : List partitionEntry → List Nat
  | [] => []
  | e :: rest =>
    recordBytes fdOff e.size strOff ++
      recordsFrom ((strOff + (e.name.length + 1)) % 2 ^ 32)
        ((fdOff + e.size) % 2 ^ 64) rest

/-- The partition entry table in the spec's words: for each entry, a
24-byte record whose relative data offset is the sum of the sizes of all
prior entries and whose name-table offset is the sum of
`len(name) + 1` over all prior entries (accumulators unwrapped). -/
def recordsSpec (strOff fdOff : Nat) : List partitionEntry → List Nat
  | [] => []
  | e :: rest =>
    recordBytes fdOff e.size strOff ++
      recordsSpec (strOff + (e.name.length + 1)) (fdOff + e.size) rest

/-- The entry list as mutated by `entryTableLoop`: each entry receives
its absolute `dataOffset` and its `stringOffset`. -/
def updateEntries (base strOff fdOff : Nat) :
    List partitionEntry → List partitionEntry
  | [] => []
  | e :: rest =>
    { e with dataOffset := (base + fdOff) % 2 ^ 64, stringOffset := strOff } ::
      updateEntries base ((strOff + (e.name.length + 1)) % 2 ^ 32)
        ((fdOff + e.size) % 2 ^ 64) rest

/-- The name table as the spec describes it: the null-terminated names,
packed in entry order. -/
def nameBlob : List partitionEntry → List Nat
  | [] => []
  | e :: rest => e.name ++ 0 :: nameBlob rest

/-- The payload region: the source-file bytes of each entry, in entry
order. -/
def payloads (fs : FileSystem) (es : List partitionEntry) : List Nat :=
  (es.map fun e => (fs e.path).getD []).flatten

/-- The `dataOffset` fields of `es` are contiguous starting at `p`:
each entry begins where the previous one ends. -/
def offsetsFrom : Nat → List partitionEntry → Prop
  | _, [] => True
  | p, e :: rest => e.dataOffset = p ∧ offsetsFrom (p + e.size) rest

/-- The `stringOffset` fields of `es` are consecutive starting at `k`:
each name begins right after the previous name's terminator. -/
def nameOffsetsFrom : Nat → List partitionEntry → Prop
  | _, [] => True
  | k, e :: rest =>
    e.stringOffset = k ∧ nameOffsetsFrom (k + (e.name.length + 1)) rest

/-- Every entry of `es` can be copied faithfully from `fs`: the source
file is present and its length equals the recorded size. -/
def contentsMatch (fs : FileSystem) (es : List partitionEntry) : Prop :=
  ∀ e ∈ es, (fs e.path).isSome = true ∧ ((fs e.path).getD []).length = e.size

instance (fs : FileSystem) (es : List partitionEntry) :
    Decidable (contentsMatch fs es) :=
  inferInstanceAs (Decidable (∀ e ∈ es, (fs e.path).isSome = true
    ∧ ((fs e.path).getD []).length = e.size))

/-! ## Concrete scenario from the spec (§8)

Two files, `"b.bin"` with bytes `01 02 03` and `"a.bin"` with bytes
`AA BB`, added in that order.  Paths are the byte strings of `"b.bin"`
and `"a.bin"`. -/

/-- The path bytes of `"a.bin"`. -/
def aPath : Path := [97, 46, 98, 105, 110]

/-- The path bytes of `"b.bin"`. -/
def bPath : Path := [98, 46, 98, 105, 110]

/-- The scenario filesystem: `"b.bin"` holds `01 02 03`, `"a.bin"` holds
`AA BB`. -/
def scenarioFs : FileSystem := fun p =>
  if p = bPath then some [1, 2, 3]
  else if p = aPath then some [170, 187] else none

/-- The builder after `AddFile("b.bin")` then `AddFile("a.bin")` on the
scenario filesystem, with the default buffer size. -/
def scenarioBuilder : Builder :=
  (AddFile scenarioFs (AddFile scenarioFs
    { BufferSize := 4096, partEntries := [] } bPath).1 aPath).1

/-- A filesystem with two distinct paths `"x/a"` and `"y/a"` whose base
names collide (both are `"a"`); each file holds one byte. -/
def collideFs : FileSystem := fun p =>
  if p = [120, 47, 97] then some [7]
  else if p = [121, 47, 97] then some [8] else none

/-- The builder holding the two colliding-name files `"x/a"` and
`"y/a"`. -/
def collideBuilder : Builder :=
  (AddFile collideFs (AddFile collideFs
    { BufferSize := 4096, partEntries := [] } [120, 47, 97]).1 [121, 47, 97]).1

/-- A filesystem for the size-mismatch scenario: the single file
`"a.bin"` holds two bytes. -/
def shrunkFs : FileSystem := fun p =>
  if p = aPath then some [170, 187] else none

/-- A builder that recorded `"a.bin"` with size 3, although the file (see
`shrunkFs`) now holds only 2 bytes — as after the source shrank between
`AddFile` and `Build`. -/
def shrunkBuilder : Builder :=
  { BufferSize := 4096,
    partEntries := [{ path := aPath, name := aPath, size := 3,
                      dataOffset := 0, stringOffset := 0 }] }

/-- The header `Build` writes for a builder's entries (generated after
sorting). -/
def buildHeader (b : Builder) : List Nat :=
  (generateHeader (sortEntries b.partEntries)).1

/-- The entry list as mutated by header generation during `Build`:
sorted, with offsets assigned. -/
def buildEntries (b : Builder) : List partitionEntry :=
  (generateHeader (sortEntries b.partEntries)).2

/-! ## Basic length and buffer lemmas -/

@[simp] theorem leBytes_length (w v : Nat) : (leBytes w v).length = w := by
  induction w generalizing v with
  | zero => rfl
  | succ k ih => simp [leBytes, ih]

@[simp] theorem le32_length (v : Nat) : (le32 v).length = 4 :=
  leBytes_length 4 v

@[simp] theorem le64_length (v : Nat) : (le64 v).length = 8 :=
  leBytes_length 8 v

@[simp] theorem recordBytes_length (f s k : Nat) :
    (recordBytes f s k).length = 24 := by
  simp [recordBytes]

theorem writeAt_length (buf : List Nat) (pos : Nat) (d : List Nat) :
    (writeAt buf pos d).length = buf.length := by
  simp [writeAt]
  omega

/-- Writing `d` at the start of an all-zero region of size `zs ≥ |d|`
replaces the first `|d|` zeros by `d`. -/
theorem writeAt_region (A d : List Nat) (zs pos : Nat) (R : List Nat)
    (hpos : pos = A.length) (h : d.length ≤ zs) :
    writeAt (A ++ (List.replicate zs 0 ++ R)) pos d
      = A ++ (d ++ (List.replicate (zs - d.length) 0 ++ R)) := by
  subst hpos
  unfold writeAt
  have h1 : (A ++ (List.replicate zs (0 : Nat) ++ R)).take A.length = A :=
    List.take_left _ _
  have h2 : (A ++ (List.replicate zs (0 : Nat) ++ R)).length - A.length
      = zs + R.length := by
    simp
  have h3 : d.take (zs + R.length) = d :=
    List.take_of_length_le (by omega)
  have h4 : (A ++ (List.replicate zs (0 : Nat) ++ R)).drop
        (A.length + d.length)
      = List.replicate (zs - d.length) 0 ++ R := by
    rw [List.drop_append_eq_append_drop]
    have hA : A.drop (A.length + d.length) = [] :=
      List.drop_eq_nil_of_le (by omega)
    rw [hA, List.nil_append, List.drop_append_eq_append_drop,
      List.drop_replicate]
    have hz : A.length + d.length - A.length = d.length := by omega
    rw [hz]
    have hR : d.length - (List.replicate zs (0 : Nat)).length = 0 := by
      simp
      omega
    rw [hR, List.drop_zero]
  rw [h1, h2, h3, h4, List.append_assoc]

/-- The four consecutive `writeAt`s of one loop iteration of
`entryTableLoop` fill the next 24 zero bytes with one record. -/
theorem write4_region (A R : List Nat) (pos k f s : Nat)
    (hpos : pos = A.length) :
    writeAt (writeAt (writeAt (writeAt
        (A ++ (List.replicate 24 0 ++ R)) pos (le64 f))
        (pos + 8) (le64 s)) (pos + 16) (le32 k)) (pos + 20) (le32 0)
      = A ++ (recordBytes f s k ++ R) := by
  subst hpos
  rw [show (24 : Nat) = 8 + (8 + (4 + 4)) from rfl, List.replicate_add,
    List.replicate_add, List.replicate_add]
  simp only [List.append_assoc]
  rw [writeAt_region A (le64 f) 8 _ _ rfl (by simp)]
  simp only [le64_length, le32_length, Nat.sub_self, List.replicate_zero,
    List.nil_append]
  rw [← List.append_assoc A]
  rw [writeAt_region (A ++ le64 f) (le64 s) 8 _ _
    (by simp only [List.length_append, le64_length]) (by simp)]
  simp only [le64_length, le32_length, Nat.sub_self, List.replicate_zero,
    List.nil_append]
  rw [← List.append_assoc (A ++ le64 f)]
  rw [writeAt_region (A ++ le64 f ++ le64 s) (le32 k) 4 _ _
    (by simp only [List.length_append, le64_length]) (by simp)]
  simp only [le64_length, le32_length, Nat.sub_self, List.replicate_zero,
    List.nil_append]
  rw [← List.append_assoc (A ++ le64 f ++ le64 s)]
  rw [writeAt_region (A ++ le64 f ++ le64 s ++ le32 k) (le32 0) 4 _ _
    (by simp only [List.length_append, le64_length, le32_length])
    (by simp)]
  simp [recordBytes, List.append_assoc]

/-- Closed form of `entryTableLoop`: starting right after a prefix `A`,
it turns the next `24 * n` zeros into the records and returns the entries
with their offsets assigned. -/
theorem entryTableLoop_eq (base : Nat) (es : List partitionEntry) :
    ∀ (A R : List Nat) (pos strOff fdOff : Nat), pos = A.length →
      entryTableLoop base es (A ++ (List.replicate (es.length * 24) 0 ++ R))
          pos strOff fdOff
        = (A ++ (recordsFrom strOff fdOff es ++ R),
           updateEntries base strOff fdOff es) := by
  induction es with
  | nil =>
    intro A R pos k f hpos
    simp [entryTableLoop, recordsFrom, updateEntries]
  | cons e rest ih =>
    intro A R pos k f hpos
    subst hpos
    have hsplit : List.replicate ((e :: rest).length * 24) (0 : Nat)
        = List.replicate 24 0 ++ List.replicate (rest.length * 24) 0 := by
      rw [← List.replicate_add]
      congr 1
      simp [List.length_cons]
      ring
    simp only [entryTableLoop]
    rw [hsplit, List.append_assoc]
    rw [write4_region A (List.replicate (rest.length * 24) 0 ++ R)
      A.length k f e.size rfl]
    rw [show A ++ (recordBytes f e.size k
          ++ (List.replicate (rest.length * 24) 0 ++ R))
        = (A ++ recordBytes f e.size k)
          ++ (List.replicate (rest.length * 24) 0 ++ R) by
      simp [List.append_assoc]]
    rw [ih (A ++ recordBytes f e.size k) R _ _ _ (by simp)]
    simp [recordsFrom, updateEntries, List.append_assoc]

@[simp] theorem PFS0Magic_length : PFS0Magic.length = 4 := rfl

@[simp] theorem recordsFrom_length (k f : Nat) (es : List partitionEntry) :
    (recordsFrom k f es).length = es.length * 24 := by
  induction es generalizing k f with
  | nil => simp [recordsFrom]
  | cons e rest ih =>
    simp [recordsFrom, ih]
    ring

@[simp] theorem nameBlob_length (es : List partitionEntry) :
    (nameBlob es).length = nameTableSize es := by
  induction es with
  | nil => simp [nameBlob, nameTableSize]
  | cons e rest ih =>
    simp [nameBlob, nameTableSize, ih]
    omega

theorem nameTableSize_cons (e : partitionEntry) (rest : List partitionEntry) :
    nameTableSize (e :: rest) = e.name.length + 1 + nameTableSize rest := rfl

theorem sumSizes_cons (e : partitionEntry) (rest : List partitionEntry) :
    sumSizes (e :: rest) = e.size + sumSizes rest := rfl

/-- Closed form of `stringTableLoop` on entries whose `stringOffset`
fields are consecutive: starting at buffer position
`stOff + (first offset)`, it turns the leading
`nameTableSize es` zeros of the remaining region into the packed
null-terminated names. -/
theorem stringTableLoop_eq (stOff : Nat) :
    ∀ (es : List partitionEntry) (A R : List Nat),
      stOff ≤ A.length →
      nameOffsetsFrom (A.length - stOff) es →
      stringTableLoop stOff es
          (A ++ (List.replicate (nameTableSize es) 0 ++ R))
        = A ++ (nameBlob es ++ R) := by
  intro es
  induction es with
  | nil =>
    intro A R _ _
    simp [stringTableLoop, nameTableSize, nameBlob]
  | cons e rest ih =>
    intro A R hle hoff
    obtain ⟨h1, h2⟩ := hoff
    simp only [stringTableLoop]
    rw [nameTableSize_cons,
      show e.name.length + 1 + nameTableSize rest
        = e.name.length + (1 + nameTableSize rest) by omega,
      List.replicate_add, List.append_assoc]
    rw [writeAt_region A e.name e.name.length _ _ (by omega) (le_refl _)]
    simp only [Nat.sub_self, List.replicate_zero, List.nil_append]
    rw [show 1 + nameTableSize rest = nameTableSize rest + 1 by omega,
      List.replicate_succ, ← List.singleton_append]
    simp only [List.append_assoc]
    rw [← List.append_assoc A, ← List.append_assoc (A ++ e.name)]
    rw [ih (A ++ e.name ++ [0]) R (by simp; omega)
      (by
        have hlen : (A ++ e.name ++ [0]).length - stOff
            = A.length - stOff + (e.name.length + 1) := by
          simp
          omega
        rw [hlen]
        exact h2)]
    simp [nameBlob, List.append_assoc]

/-! ## Properties of `updateEntries` -/

@[simp] theorem updateEntries_length (base k f : Nat)
    (es : List partitionEntry) :
    (updateEntries base k f es).length = es.length := by
  induction es generalizing k f with
  | nil => rfl
  | cons e rest ih => simp [updateEntries, ih]

theorem updateEntries_nameTableSize (base k f : Nat)
    (es : List partitionEntry) :
    nameTableSize (updateEntries base k f es) = nameTableSize es := by
  induction es generalizing k f with
  | nil => rfl
  | cons e rest ih => simp [updateEntries, nameTableSize_cons, ih]

theorem updateEntries_sumSizes (base k f : Nat) (es : List partitionEntry) :
    sumSizes (updateEntries base k f es) = sumSizes es := by
  induction es generalizing k f with
  | nil => rfl
  | cons e rest ih => simp [updateEntries, sumSizes_cons, ih]

theorem updateEntries_nameBlob (base k f : Nat) (es : List partitionEntry) :
    nameBlob (updateEntries base k f es) = nameBlob es := by
  induction es generalizing k f with
  | nil => rfl
  | cons e rest ih => simp [updateEntries, nameBlob, ih]

theorem updateEntries_payloads (fs : FileSystem) (base k f : Nat)
    (es : List partitionEntry) :
    payloads fs (updateEntries base k f es) = payloads fs es := by
  induction es generalizing k f with
  | nil => rfl
  | cons e rest ih =>
    simp only [updateEntries, payloads, List.map_cons, List.flatten_cons]
    have h := ih ((k + (e.name.length + 1)) % 2 ^ 32) ((f + e.size) % 2 ^ 64)
    simp only [payloads] at h
    simpa using h

theorem updateEntries_contentsMatch (fs : FileSystem) (base k f : Nat)
    (es : List partitionEntry) (h : contentsMatch fs es) :
    contentsMatch fs (updateEntries base k f es) := by
  induction es generalizing k f with
  | nil => intro e he; cases he
  | cons e rest ih =>
    intro x hx
    rw [updateEntries, List.mem_cons] at hx
    rcases hx with hx | hx
    · subst hx
      simpa using h e (by simp)
    · exact ih _ _ (fun y hy => h y (by simp [hy])) x hx

/-- The fields untouched by `entryTableLoop` (`path`, `name`, `size`) are
preserved at every index. -/
theorem updateEntries_getD_fields (base : Nat) (es : List partitionEntry) :
    ∀ (k f i : Nat) (d : partitionEntry), i < es.length →
      ((updateEntries base k f es).getD i d).path = (es.getD i d).path ∧
      ((updateEntries base k f es).getD i d).name = (es.getD i d).name ∧
      ((updateEntries base k f es).getD i d).size = (es.getD i d).size := by
  induction es with
  | nil => intro k f i d hi; simp at hi
  | cons e rest ih =>
    intro k f i d hi
    match i with
    | 0 => simp [updateEntries]
    | i + 1 =>
      simp only [updateEntries, List.getD_cons_succ]
      exact ih _ _ i d (by simpa using hi)

/-- The `stringOffset` fields assigned by `entryTableLoop` are consecutive
whenever the name table fits a `uint32`. -/
theorem nameOffsetsFrom_updateEntries (es : List partitionEntry) :
    ∀ (base k f : Nat), k + nameTableSize es ≤ 2 ^ 32 →
      nameOffsetsFrom k (updateEntries base k f es) := by
  induction es with
  | nil => intro base k f _; simp [updateEntries, nameOffsetsFrom]
  | cons e rest ih =>
    intro base k f hk
    rw [nameTableSize_cons] at hk
    simp only [updateEntries, nameOffsetsFrom]
    refine ⟨by trivial, ?_⟩
    match rest with
    | [] => simp [updateEntries, nameOffsetsFrom]
    | r :: rs =>
      have hlt : k + (e.name.length + 1) < 2 ^ 32 := by
        have h1 : nameTableSize (r :: rs) ≥ 1 := by
          rw [nameTableSize_cons]; omega
        omega
      have hmod : (k + (e.name.length + 1)) % 2 ^ 32
          = k + (e.name.length + 1) := Nat.mod_eq_of_lt hlt
      rw [hmod]
      exact ih base _ _ (by omega)

/-- The `dataOffset` fields assigned by `entryTableLoop` are contiguous
from `base + f` whenever the archive end fits a `uint64`. -/
theorem offsetsFrom_updateEntries (es : List partitionEntry) :
    ∀ (base k f : Nat), base + f + sumSizes es < 2 ^ 64 →
      offsetsFrom (base + f) (updateEntries base k f es) := by
  induction es with
  | nil => intro base k f _; simp [updateEntries, offsetsFrom]
  | cons e rest ih =>
    intro base k f hb
    rw [sumSizes_cons] at hb
    simp only [updateEntries, offsetsFrom]
    refine ⟨?_, ?_⟩
    · exact Nat.mod_eq_of_lt (by omega)
    · have hmod : (f + e.size) % 2 ^ 64 = f + e.size :=
        Nat.mod_eq_of_lt (by omega)
      have h2 := ih base ((k + (e.name.length + 1)) % 2 ^ 32) (f + e.size)
        (by omega)
      rw [hmod]
      simpa [Nat.add_assoc] using h2

/-- The entries returned by `entryTableLoop` do not depend on the buffer:
they are exactly `updateEntries`. -/
theorem entryTableLoop_snd (es : List partitionEntry) :
    ∀ (base : Nat) (buf : List Nat) (pos k f : Nat),
      (entryTableLoop base es buf pos k f).2 = updateEntries base k f es := by
  induction es with
  | nil => intro base buf pos k f; rfl
  | cons e rest ih =>
    intro base buf pos k f
    simp [entryTableLoop, updateEntries, ih]

/-- The entry list returned by `generateHeader`. -/
theorem generateHeader_snd (es : List partitionEntry) :
    (generateHeader es).2 = updateEntries (headerSizeOf es) 0 0 es := by
  simp only [generateHeader]
  rw [entryTableLoop_snd]
  rfl

/-- `writeAt_region` at position 0 (empty prefix). -/
theorem writeAt_region0 (d : List Nat) (zs : Nat) (R : List Nat)
    (h : d.length ≤ zs) :
    writeAt (List.replicate zs 0 ++ R) 0 d
      = d ++ (List.replicate (zs - d.length) 0 ++ R) := by
  have hw := writeAt_region [] d zs 0 R rfl h
  simpa using hw

/-- The header bytes produced by `generateHeader`: prologue, entry
records, packed null-terminated names, zero padding.  The only numeric
side condition is that the name table fits the `uint32` string offsets,
so that each name lands at its own position. -/
theorem generateHeader_fst (es : List partitionEntry)
    (hnts : nameTableSize es < 2 ^ 32) :
    (generateHeader es).1
      = prologueBytes es.length (nameTableSize es + paddingOf es)
        ++ (recordsFrom 0 0 es
        ++ (nameBlob es ++ List.replicate (paddingOf es) 0)) := by
  simp only [generateHeader]
  set pad := if (16 + es.length * 24 + nameTableSize es) % 16 > 0
    then 16 - (16 + es.length * 24 + nameTableSize es) % 16 else 0 with hpadd
  have hpad : paddingOf es = pad := rfl
  have hsplit :
      List.replicate (16 + es.length * 24 + nameTableSize es + pad) (0 : Nat)
      = List.replicate 4 0 ++ (List.replicate 4 0 ++ (List.replicate 4 0
        ++ (List.replicate 4 0 ++ (List.replicate (es.length * 24) 0
        ++ List.replicate (nameTableSize es + pad) 0)))) := by
    rw [← List.replicate_add, ← List.replicate_add, ← List.replicate_add,
      ← List.replicate_add, ← List.replicate_add]
    congr 1
    omega
  rw [hsplit]
  rw [writeAt_region0 PFS0Magic 4 _ (by simp)]
  simp only [PFS0Magic_length, Nat.sub_self, List.replicate_zero,
    List.nil_append]
  rw [writeAt_region PFS0Magic (le32 es.length) 4 4 _ rfl (by simp)]
  simp only [le32_length, Nat.sub_self, List.replicate_zero,
    List.nil_append]
  rw [← List.append_assoc PFS0Magic]
  rw [writeAt_region (PFS0Magic ++ le32 es.length)
    (le32 (nameTableSize es + pad)) 4 8 _ (by simp) (by simp)]
  simp only [le32_length, Nat.sub_self, List.replicate_zero,
    List.nil_append]
  rw [← List.append_assoc (PFS0Magic ++ le32 es.length)]
  rw [writeAt_region
    (PFS0Magic ++ le32 es.length ++ le32 (nameTableSize es + pad))
    (le32 0) 4 12 _ (by simp) (by simp)]
  simp only [le32_length, Nat.sub_self, List.replicate_zero,
    List.nil_append]
  rw [← List.append_assoc
    (PFS0Magic ++ le32 es.length ++ le32 (nameTableSize es + pad))]
  rw [entryTableLoop_eq (16 + es.length * 24 + nameTableSize es + pad) es
    (PFS0Magic ++ le32 es.length ++ le32 (nameTableSize es + pad) ++ le32 0)
    (List.replicate (nameTableSize es + pad) 0) 16 0 0 (by simp)]
  simp only
  rw [show List.replicate (nameTableSize es + pad) (0 : Nat)
      = List.replicate (nameTableSize (updateEntries
          (16 + es.length * 24 + nameTableSize es + pad) 0 0 es)) 0
        ++ List.replicate pad 0 by
    rw [updateEntries_nameTableSize, ← List.replicate_add]]
  rw [← List.append_assoc
    (PFS0Magic ++ le32 es.length ++ le32 (nameTableSize es + pad) ++ le32 0)]
  rw [stringTableLoop_eq _ _ _ _
    (by simp; omega)
    (by
      have h0 : (PFS0Magic ++ le32 es.length
            ++ le32 (nameTableSize es + pad) ++ le32 0
            ++ recordsFrom 0 0 es).length - (16 + es.length * 24) = 0 := by
        simp
        omega
      rw [h0]
      exact nameOffsetsFrom_updateEntries es _ 0 0 (by omega))]
  rw [updateEntries_nameBlob]
  simp [prologueBytes, hpad, List.append_assoc]

/-! ## The copy phase -/

theorem writeFileAt_append (out d : List Nat) :
    writeFileAt out out.length d = out ++ d := by
  unfold writeFileAt
  rw [List.take_length, Nat.sub_self, List.replicate_zero]
  have hd : out.drop (out.length + d.length) = [] :=
    List.drop_eq_nil_of_le (by omega)
  simp [hd]

/-- With a positive chunk size and enough fuel, the copy loop appends the
whole source at the end of the output file and reports its length. -/
theorem copyLoop_closed (bs : Nat) (hbs : 0 < bs) :
    ∀ (fuel : Nat) (src out : List Nat), src.length ≤ fuel →
      copyLoop bs fuel src out out.length = (out ++ src, src.length) := by
  intro fuel
  induction fuel with
  | zero =>
    intro src out hf
    have hsrc : src = [] := List.eq_nil_of_length_eq_zero (by omega)
    subst hsrc
    simp [copyLoop]
  | succ fuel ih =>
    intro src out hf
    match hsrc : src with
    | [] => simp [copyLoop]
    | x :: xs =>
      have hn : ¬ (min bs (x :: xs).length = 0) := by
        simp only [List.length_cons]
        omega
      simp only [copyLoop, hn, ite_false, if_neg]
      rw [writeFileAt_append]
      have hlen : out.length + min bs (x :: xs).length
          = (out ++ (x :: xs).take bs).length := by
        simp only [List.length_append, List.length_take]
      rw [hlen]
      rw [ih ((x :: xs).drop bs) (out ++ (x :: xs).take bs)
        (by
          simp only [List.length_drop, List.length_cons] at hf ⊢
          omega)]
      have h1 : out ++ (x :: xs).take bs ++ (x :: xs).drop bs
          = out ++ (x :: xs) := by
        rw [List.append_assoc, List.take_append_drop]
      have h2 : min bs (x :: xs).length + ((x :: xs).drop bs).length
          = (x :: xs).length := by
        simp only [List.length_drop, List.length_cons]
        omega
      rw [h1, h2]

/-- A successful copy of one entry whose `dataOffset` is the current end
of the output file. -/
theorem copyFileToNSP_ok (fs : FileSystem) (bs : Nat) (out : List Nat)
    (e : partitionEntry) (c : List Nat) (hbs : 0 < bs)
    (hc : fs e.path = some c) (hsize : c.length = e.size)
    (hoff : e.dataOffset = out.length) (hseek : e.dataOffset < 2 ^ 63)
    (hsz : e.size < 2 ^ 64) :
    copyFileToNSP fs bs out e = (out ++ c, none) := by
  unfold copyFileToNSP
  rw [hc]
  simp only
  rw [if_neg (by omega)]
  rw [hoff, copyLoop_closed bs hbs c.length c out (le_refl _)]
  simp only
  rw [if_neg (by
    simp only [ne_eq, Decidable.not_not]
    rw [Nat.mod_eq_of_lt (by omega)]
    omega)]

/-- The copy phase on entries whose offsets are contiguous from the end
of the current output appends all payloads and reports no error. -/
theorem copyAll_ok (fs : FileSystem) (bs : Nat) (hbs : 0 < bs) :
    ∀ (es : List partitionEntry) (out : List Nat),
      contentsMatch fs es → offsetsFrom out.length es →
      out.length + sumSizes es < 2 ^ 63 →
      copyAll fs bs es out = (out ++ payloads fs es, none) := by
  intro es
  induction es with
  | nil =>
    intro out _ _ _
    simp [copyAll, payloads]
  | cons e rest ih =>
    intro out hm hoff hb
    obtain ⟨hsome, hlen⟩ := hm e (by simp)
    obtain ⟨c, hc⟩ := Option.isSome_iff_exists.mp hsome
    rw [hc] at hlen
    simp only [Option.getD_some] at hlen
    obtain ⟨ho1, ho2⟩ := hoff
    rw [sumSizes_cons] at hb
    simp only [copyAll]
    rw [copyFileToNSP_ok fs bs out e c hbs hc hlen ho1 (by omega) (by omega)]
    simp only
    have hout : (out ++ c).length = out.length + e.size := by
      simp [hlen]
    rw [ih (out ++ c) (fun y hy => hm y (by simp [hy]))
      (by rw [hout]; exact ho2) (by rw [hout]; omega)]
    simp [payloads, hc, List.append_assoc]

/-- Splitting the copy phase at an arbitrary point. -/
theorem copyAll_append (fs : FileSystem) (bs : Nat)
    (xs ys : List partitionEntry) :
    ∀ out, copyAll fs bs (xs ++ ys) out
      = match copyAll fs bs xs out with
        | (out', some err) => (out', some err)
        | (out', none) => copyAll fs bs ys out' := by
  induction xs with
  | nil => intro out; simp [copyAll]
  | cons x xs ih =>
    intro out
    simp only [List.cons_append, copyAll]
    match copyFileToNSP fs bs out x with
    | (out', some err) => simp
    | (out', none) => simp [ih out']

/-- The header length is the padded header size. -/
theorem generateHeader_length (es : List partitionEntry)
    (hnts : nameTableSize es < 2 ^ 32) :
    (generateHeader es).1.length = headerSizeOf es := by
  rw [generateHeader_fst es hnts]
  simp [prologueBytes, headerSizeOf]
  omega

/-- A fully successful `Build`: the output file is the header followed by
the payloads of the sorted entries. -/
theorem Build_ok (fs : FileSystem) (b : Builder)
    (hne : b.partEntries ≠ [])
    (hbs : 0 < b.BufferSize)
    (hm : contentsMatch fs (sortEntries b.partEntries))
    (hb : headerSizeOf (sortEntries b.partEntries)
      + sumSizes (sortEntries b.partEntries) < 2 ^ 63)
    (hnts : nameTableSize (sortEntries b.partEntries) < 2 ^ 32) :
    Build fs b = ⟨some ((generateHeader (sortEntries b.partEntries)).1
      ++ payloads fs (sortEntries b.partEntries)), none⟩ := by
  unfold Build
  rw [if_neg (by simpa using hne)]
  simp only
  rw [show generateHeader (sortEntries b.partEntries)
      = ((generateHeader (sortEntries b.partEntries)).1,
         (generateHeader (sortEntries b.partEntries)).2) from rfl]
  simp only
  rw [generateHeader_snd]
  have hlen : (generateHeader (sortEntries b.partEntries)).1.length
      = headerSizeOf (sortEntries b.partEntries) :=
    generateHeader_length _ hnts
  rw [copyAll_ok fs b.BufferSize hbs _ _
    (updateEntries_contentsMatch fs _ 0 0 _ hm)
    (by
      rw [hlen]
      have ho := offsetsFrom_updateEntries (sortEntries b.partEntries)
        (headerSizeOf (sortEntries b.partEntries)) 0 0 (by omega)
      simpa using ho)
    (by
      rw [hlen, updateEntries_sumSizes]
      omega)]
  rw [updateEntries_payloads]

/-! ## Slicing and index lemmas -/

theorem sliceAt_append_right (A B : List Nat) (pos k n : Nat)
    (hpos : pos = A.length + k) :
    sliceAt (A ++ B) pos n = sliceAt B k n := by
  subst hpos
  unfold sliceAt
  rw [List.drop_append_eq_append_drop]
  have h1 : A.drop (A.length + k) = [] := List.drop_eq_nil_of_le (by omega)
  have h2 : A.length + k - A.length = k := by omega
  rw [h1, h2, List.nil_append]

theorem sliceAt_append_left (B C : List Nat) (k n : Nat)
    (h : k + n ≤ B.length) :
    sliceAt (B ++ C) k n = sliceAt B k n := by
  unfold sliceAt
  rw [List.drop_append_eq_append_drop, List.take_append_eq_append_take]
  have h1 : (B.drop k).length = B.length - k := by simp
  have h2 : n - (B.drop k).length = 0 := by omega
  rw [h2, List.take_zero, List.append_nil]

theorem getD_append_right' (A B : List Nat) (pos k : Nat)
    (hpos : pos = A.length + k) :
    (A ++ B).getD pos 0 = B.getD k 0 := by
  subst hpos
  have h2 : A.length + k - A.length = k := by omega
  rw [List.getD_eq_getElem?_getD, List.getD_eq_getElem?_getD,
    List.getElem?_append_right (by omega), h2]

theorem getD_append_left' (A B : List Nat) (k : Nat) (h : k < A.length) :
    (A ++ B).getD k 0 = A.getD k 0 := by
  rw [List.getD_eq_getElem?_getD, List.getD_eq_getElem?_getD,
    List.getElem?_append, if_pos h]

/-- Decoding the `uint32` written at the start of the tail. -/
theorem readLe32_at (A R : List Nat) (v pos : Nat) (hpos : pos = A.length) :
    readLe32 (A ++ (le32 v ++ R)) pos = v % 2 ^ 32 := by
  subst hpos
  have h0 : (A ++ (le32 v ++ R)).getD A.length 0 = v % 256 := by
    rw [getD_append_right' A _ _ 0 (by omega)]
    rfl
  have h1 : (A ++ (le32 v ++ R)).getD (A.length + 1) 0 = v / 256 % 256 := by
    rw [getD_append_right' A _ _ 1 rfl]
    rfl
  have h2 : (A ++ (le32 v ++ R)).getD (A.length + 2) 0
      = v / 256 / 256 % 256 := by
    rw [getD_append_right' A _ _ 2 rfl]
    rfl
  have h3 : (A ++ (le32 v ++ R)).getD (A.length + 3) 0
      = v / 256 / 256 / 256 % 256 := by
    rw [getD_append_right' A _ _ 3 rfl]
    rfl
  unfold readLe32
  rw [h0, h1, h2, h3]
  omega

/-! ## Prefix sums over entry lists -/

theorem sumSizes_take_succ (es : List partitionEntry) :
    ∀ (i : Nat) (d : partitionEntry), i < es.length →
      sumSizes (es.take (i + 1))
        = sumSizes (es.take i) + (es.getD i d).size := by
  induction es with
  | nil => intro i d hi; simp at hi
  | cons e rest ih =>
    intro i d hi
    match i with
    | 0 => simp [sumSizes, sumSizes_cons]
    | i + 1 =>
      simp only [List.take_succ_cons, List.getD_cons_succ, sumSizes_cons]
      rw [ih i d (by simpa using hi)]
      omega

theorem sumSizes_take_le (es : List partitionEntry) :
    ∀ (i : Nat), sumSizes (es.take i) ≤ sumSizes es := by
  induction es with
  | nil => intro i; simp
  | cons e rest ih =>
    intro i
    match i with
    | 0 => simp [sumSizes]
    | i + 1 =>
      simp only [List.take_succ_cons, sumSizes_cons]
      have := ih i
      omega

theorem nameTableSize_take_succ (es : List partitionEntry) :
    ∀ (i : Nat) (d : partitionEntry), i < es.length →
      nameTableSize (es.take (i + 1))
        = nameTableSize (es.take i) + ((es.getD i d).name.length + 1) := by
  induction es with
  | nil => intro i d hi; simp at hi
  | cons e rest ih =>
    intro i d hi
    match i with
    | 0 => simp [nameTableSize, nameTableSize_cons]
    | i + 1 =>
      simp only [List.take_succ_cons, List.getD_cons_succ, nameTableSize_cons]
      rw [ih i d (by simpa using hi)]
      omega

theorem nameTableSize_take_le (es : List partitionEntry) :
    ∀ (i : Nat), nameTableSize (es.take i) ≤ nameTableSize es := by
  induction es with
  | nil => intro i; simp
  | cons e rest ih =>
    intro i
    match i with
    | 0 => simp [nameTableSize]
    | i + 1 =>
      simp only [List.take_succ_cons, nameTableSize_cons]
      have := ih i
      omega

/-- Closed form of contiguous data offsets: the `i`-th offset is the base
plus the sizes of all prior entries. -/
theorem offsetsFrom_getD (es : List partitionEntry) :
    ∀ (p i : Nat) (d : partitionEntry), offsetsFrom p es → i < es.length →
      (es.getD i d).dataOffset = p + sumSizes (es.take i) := by
  induction es with
  | nil => intro p i d _ hi; simp at hi
  | cons e rest ih =>
    intro p i d hoff hi
    obtain ⟨h1, h2⟩ := hoff
    match i with
    | 0 => simpa [sumSizes] using h1
    | i + 1 =>
      simp only [List.take_succ_cons, List.getD_cons_succ, sumSizes_cons]
      rw [ih (p + e.size) i d h2 (by simpa using hi)]
      omega

/-- Closed form of consecutive name-table offsets. -/
theorem nameOffsetsFrom_getD (es : List partitionEntry) :
    ∀ (k i : Nat) (d : partitionEntry), nameOffsetsFrom k es →
      i < es.length →
      (es.getD i d).stringOffset = k + nameTableSize (es.take i) := by
  induction es with
  | nil => intro k i d _ hi; simp at hi
  | cons e rest ih =>
    intro k i d hoff hi
    obtain ⟨h1, h2⟩ := hoff
    match i with
    | 0 => simpa [nameTableSize] using h1
    | i + 1 =>
      simp only [List.take_succ_cons, List.getD_cons_succ, nameTableSize_cons]
      rw [ih (k + (e.name.length + 1)) i d h2 (by simpa using hi)]
      omega

/-- Reading one payload back out of the payload region. -/
theorem payloads_slice (fs : FileSystem) (es : List partitionEntry) :
    ∀ (i : Nat) (d : partitionEntry), i < es.length → contentsMatch fs es →
      sliceAt (payloads fs es) (sumSizes (es.take i)) ((es.getD i d).size)
        = (fs (es.getD i d).path).getD [] := by
  induction es with
  | nil => intro i d hi _; simp at hi
  | cons e rest ih =>
    intro i d hi hm
    obtain ⟨hsome, hlen⟩ := hm e (by simp)
    match i with
    | 0 =>
      simp only [List.take_zero, List.getD_cons_zero]
      unfold sumSizes
      simp only [List.foldr_nil]
      unfold payloads
      simp only [List.map_cons, List.flatten_cons]
      unfold sliceAt
      rw [List.drop_zero, List.take_append_eq_append_take]
      have h1 : ((fs e.path).getD []).take e.size = (fs e.path).getD [] :=
        List.take_of_length_le (by omega)
      have h2 : e.size - ((fs e.path).getD []).length = 0 := by omega
      rw [h1, h2, List.take_zero, List.append_nil]
    | i + 1 =>
      simp only [List.take_succ_cons, List.getD_cons_succ, sumSizes_cons]
      have hpay : payloads fs (e :: rest)
          = (fs e.path).getD [] ++ payloads fs rest := by
        simp [payloads]
      rw [hpay, sliceAt_append_right _ _ _ (sumSizes (rest.take i)) _
        (by omega)]
      exact ih i d (by simpa using hi) (fun y hy => hm y (by simp [hy]))

/-- Reading one name (and its terminator) back out of the name table. -/
theorem nameBlob_slice (es : List partitionEntry) :
    ∀ (i : Nat) (d : partitionEntry), i < es.length →
      sliceAt (nameBlob es) (nameTableSize (es.take i))
          ((es.getD i d).name.length) = (es.getD i d).name
      ∧ (nameBlob es).getD
          (nameTableSize (es.take i) + (es.getD i d).name.length) 0 = 0 := by
  induction es with
  | nil => intro i d hi; simp at hi
  | cons e rest ih =>
    intro i d hi
    match i with
    | 0 =>
      simp only [List.take_zero, List.getD_cons_zero]
      unfold nameTableSize
      simp only [List.foldr_nil]
      unfold nameBlob
      constructor
      · unfold sliceAt
        rw [List.drop_zero, List.take_append_eq_append_take]
        have h2 : e.name.length - e.name.length = 0 := by omega
        rw [List.take_length, h2, List.take_zero, List.append_nil]
      · rw [getD_append_right' e.name _ _ 0 (by omega)]
        rfl
    | i + 1 =>
      have hblob : nameBlob (e :: rest)
          = (e.name ++ [0]) ++ nameBlob rest := by
        simp [nameBlob]
      have hnts : nameTableSize ((e :: rest).take (i + 1))
          = (e.name ++ [0]).length + nameTableSize (rest.take i) := by
        simp only [List.take_succ_cons, nameTableSize_cons,
          List.length_append, List.length_cons, List.length_nil]
      constructor
      · rw [hblob, List.getD_cons_succ,
          sliceAt_append_right _ _ _ (nameTableSize (rest.take i)) _ hnts]
        exact (ih i d (by simpa using hi)).1
      · rw [hblob, List.getD_cons_succ,
          getD_append_right' _ _ _
            (nameTableSize (rest.take i) + (rest.getD i d).name.length)
            (by rw [hnts]; omega)]
        exact (ih i d (by simpa using hi)).2

/-! ## The byte-wise name order and the sort -/

theorem nameLt_trans : ∀ (a b c : List Nat),
    nameLt a b = true → nameLt b c = true → nameLt a c = true := by
  intro a
  induction a with
  | nil =>
    intro b c hab hbc
    cases b with
    | nil => cases hab
    | cons y ys =>
      cases c with
      | nil => cases hbc
      | cons z zs => rfl
  | cons x xs ih =>
    intro b c hab hbc
    cases b with
    | nil => cases hab
    | cons y ys =>
      cases c with
      | nil => cases hbc
      | cons z zs =>
        simp only [nameLt, Bool.or_eq_true, Bool.and_eq_true,
          decide_eq_true_eq] at hab hbc ⊢
        rcases hab with h1 | ⟨h1, h1'⟩ <;> rcases hbc with h2 | ⟨h2, h2'⟩
        · left; omega
        · left; omega
        · left; omega
        · right; exact ⟨by omega, ih ys zs h1' h2'⟩

theorem nameLt_irrefl : ∀ a : List Nat, nameLt a a = false := by
  intro a
  induction a with
  | nil => rfl
  | cons x xs ih => simp [nameLt, ih]

theorem nameLt_asymm (a b : List Nat) (hab : nameLt a b = true) :
    nameLt b a = false := by
  cases hba : nameLt b a
  · rfl
  · have := nameLt_trans a b a hab hba
    rw [nameLt_irrefl] at this
    cases this

theorem nameLt_connex : ∀ (a b : List Nat),
    nameLt a b = false → nameLt b a = false → a = b := by
  intro a
  induction a with
  | nil =>
    intro b hab _
    cases b with
    | nil => rfl
    | cons y ys => cases hab
  | cons x xs ih =>
    intro b hab hba
    cases b with
    | nil => cases hba
    | cons y ys =>
      rcases Nat.lt_trichotomy x y with h | h | h
      · exfalso
        simp [nameLt, h] at hab
      · subst h
        have h1 : nameLt xs ys = false := by simpa [nameLt] using hab
        have h2 : nameLt ys xs = false := by simpa [nameLt] using hba
        rw [ih ys h1 h2]
      · exfalso
        simp [nameLt, h] at hba

instance : IsTotal partitionEntry entryLe := ⟨by
  intro a b
  unfold entryLe nameLe
  simp only [Bool.not_eq_true']
  cases h : nameLt b.name a.name
  · left; rfl
  · right; exact nameLt_asymm _ _ h⟩

instance : IsTrans partitionEntry entryLe := ⟨by
  intro a b c hab hbc
  unfold entryLe nameLe at *
  simp only [Bool.not_eq_true'] at hab hbc ⊢
  cases hca : nameLt c.name a.name
  · rfl
  · exfalso
    cases hab' : nameLt a.name b.name
    · have heq := nameLt_connex a.name b.name hab' hab
      rw [heq] at hca
      rw [hca] at hbc
      cases hbc
    · have h2 := nameLt_trans c.name a.name b.name hca hab'
      rw [h2] at hbc
      cases hbc⟩

/-- The strict name order on entries, used to state "strictly
ascending". -/
def entryLt (a b : partitionEntry) : Prop := nameLt a.name b.name = true

instance : DecidableRel entryLt := fun a b =>
  inferInstanceAs (Decidable (nameLt a.name b.name = true))

instance : IsAntisymm partitionEntry entryLt := ⟨by
  intro a b hab hba
  unfold entryLt at *
  rw [nameLt_asymm _ _ hab] at hba
  cases hba⟩

theorem sortEntries_sorted (es : List partitionEntry) :
    List.Sorted entryLe (sortEntries es) :=
  List.sorted_insertionSort entryLe es

theorem sortEntries_perm (es : List partitionEntry) :
    (sortEntries es).Perm es :=
  List.perm_insertionSort entryLe es

theorem sortEntries_length (es : List partitionEntry) :
    (sortEntries es).length = es.length :=
  (sortEntries_perm es).length_eq

/-- A sorted entry list with pairwise distinct names is strictly
sorted. -/
theorem sorted_strict_of_nodup (es : List partitionEntry)
    (hs : List.Sorted entryLe es)
    (hnd : List.Pairwise (fun a b : partitionEntry => a.name ≠ b.name) es) :
    List.Sorted entryLt es := by
  have hand := List.Pairwise.and hs hnd
  refine hand.imp ?_
  intro a b hab
  obtain ⟨hle, hne⟩ := hab
  unfold entryLe nameLe at hle
  simp only [Bool.not_eq_true'] at hle
  unfold entryLt
  cases h : nameLt a.name b.name
  · exact absurd (nameLt_connex a.name b.name h hle) hne
  · rfl

/-- With pairwise distinct names, the sorted entry list does not depend
on the registration order. -/
theorem sortEntries_eq_of_perm (es1 es2 : List partitionEntry)
    (hp : es1.Perm es2)
    (hnd : List.Pairwise (fun a b : partitionEntry => a.name ≠ b.name) es1) :
    sortEntries es1 = sortEntries es2 := by
  have hnd2 : List.Pairwise
      (fun a b : partitionEntry => a.name ≠ b.name) es2 :=
    (List.Perm.pairwise_iff (fun h => h.symm) hp).mp hnd
  have hnd1' := (List.Perm.pairwise_iff
    (fun {x y : partitionEntry} (h : x.name ≠ y.name) => h.symm)
    (sortEntries_perm es1)).mpr hnd
  have hnd2' := (List.Perm.pairwise_iff
    (fun {x y : partitionEntry} (h : x.name ≠ y.name) => h.symm)
    (sortEntries_perm es2)).mpr hnd2
  refine List.eq_of_perm_of_sorted ?_
    (sorted_strict_of_nodup _ (sortEntries_sorted es1) hnd1')
    (sorted_strict_of_nodup _ (sortEntries_sorted es2) hnd2')
  exact ((sortEntries_perm es1).trans hp).trans (sortEntries_perm es2).symm

/-- `sumSizes` as a mapped sum, stable under permutation. -/
theorem sumSizes_eq_sum (es : List partitionEntry) :
    sumSizes es = (es.map (fun e => e.size)).sum := by
  induction es with
  | nil => rfl
  | cons e rest ih => simp [sumSizes_cons, ih]

theorem sumSizes_perm (es1 es2 : List partitionEntry) (hp : es1.Perm es2) :
    sumSizes es1 = sumSizes es2 := by
  rw [sumSizes_eq_sum, sumSizes_eq_sum]
  exact (hp.map _).sum_eq

theorem nameTableSize_eq_sum (es : List partitionEntry) :
    nameTableSize es = (es.map (fun e => e.name.length + 1)).sum := by
  induction es with
  | nil => rfl
  | cons e rest ih => simp [nameTableSize_cons, ih]

theorem nameTableSize_perm (es1 es2 : List partitionEntry)
    (hp : es1.Perm es2) : nameTableSize es1 = nameTableSize es2 := by
  rw [nameTableSize_eq_sum, nameTableSize_eq_sum]
  exact (hp.map _).sum_eq

theorem contentsMatch_perm (fs : FileSystem) (es1 es2 : List partitionEntry)
    (hp : es1.Perm es2) (h : contentsMatch fs es1) :
    contentsMatch fs es2 :=
  fun e he => h e (hp.mem_iff.mpr he)

/-- Every entry contributes at least one name-table byte. -/
theorem length_le_nameTableSize (es : List partitionEntry) :
    es.length ≤ nameTableSize es := by
  induction es with
  | nil => simp [nameTableSize]
  | cons e rest ih =>
    rw [nameTableSize_cons]
    simp only [List.length_cons]
    omega

/-! ## Little-endian encodings are determined by the wrapped value -/

theorem leBytes_congr : ∀ (w v v' : Nat),
    v % 256 ^ w = v' % 256 ^ w → leBytes w v = leBytes w v' := by
  intro w
  induction w with
  | zero => intro v v' _; rfl
  | succ w ih =>
    intro v v' h
    have hdvd : (256 : Nat) ∣ 256 ^ (w + 1) :=
      Dvd.intro (256 ^ w) (by ring)
    have h1 : v % 256 = v' % 256 := by
      rw [← Nat.mod_mod_of_dvd v hdvd, h, Nat.mod_mod_of_dvd v' hdvd]
    have hpow : (256 : Nat) ^ (w + 1) = 256 * 256 ^ w := by ring
    have h2 : v / 256 % 256 ^ w = v' / 256 % 256 ^ w := by
      rw [← Nat.mod_mul_right_div_self v 256 (256 ^ w),
        ← Nat.mod_mul_right_div_self v' 256 (256 ^ w), ← hpow, h]
    simp only [leBytes, h1, ih _ _ h2]

theorem le32_congr (v v' : Nat) (h : v % 2 ^ 32 = v' % 2 ^ 32) :
    le32 v = le32 v' :=
  leBytes_congr 4 v v' (by norm_num at h ⊢; exact h)

theorem le64_congr (v v' : Nat) (h : v % 2 ^ 64 = v' % 2 ^ 64) :
    le64 v = le64 v' :=
  leBytes_congr 8 v v' (by norm_num at h ⊢; exact h)

/-- The record bytes written by the loop (with its wrapping accumulators)
are exactly the record bytes of the spec description (accumulators as
plain sums over prior entries): an `N`-byte little-endian field encodes
only the value modulo `2 ^ (8 N)`. -/
theorem recordsFrom_eq_recordsSpec : ∀ (es : List partitionEntry)
    (k k' f f' : Nat), k % 2 ^ 32 = k' % 2 ^ 32 → f % 2 ^ 64 = f' % 2 ^ 64 →
    recordsFrom k f es = recordsSpec k' f' es := by
  intro es
  induction es with
  | nil => intro k k' f f' _ _; rfl
  | cons e rest ih =>
    intro k k' f f' hk hf
    simp only [recordsFrom, recordsSpec, recordBytes]
    rw [le64_congr f f' hf, le32_congr k k' hk]
    rw [ih ((k + (e.name.length + 1)) % 2 ^ 32) (k' + (e.name.length + 1))
      ((f + e.size) % 2 ^ 64) (f' + e.size) (by omega) (by omega)]

/-! ## Reading the declared header fields -/

theorem generateHeader_count_field (es : List partitionEntry)
    (hnts : nameTableSize es < 2 ^ 32) :
    readLe32 (generateHeader es).1 4 = es.length % 2 ^ 32 := by
  rw [generateHeader_fst es hnts]
  rw [show prologueBytes es.length (nameTableSize es + paddingOf es)
        ++ (recordsFrom 0 0 es
        ++ (nameBlob es ++ List.replicate (paddingOf es) 0))
      = PFS0Magic ++ (le32 es.length
        ++ (le32 (nameTableSize es + paddingOf es) ++ (le32 0
        ++ (recordsFrom 0 0 es
        ++ (nameBlob es ++ List.replicate (paddingOf es) 0))))) by
    simp [prologueBytes, List.append_assoc]]
  exact readLe32_at _ _ _ 4 rfl

theorem generateHeader_nts_field (es : List partitionEntry)
    (hnts : nameTableSize es < 2 ^ 32) :
    readLe32 (generateHeader es).1 8
      = (nameTableSize es + paddingOf es) % 2 ^ 32 := by
  rw [generateHeader_fst es hnts]
  rw [show prologueBytes es.length (nameTableSize es + paddingOf es)
        ++ (recordsFrom 0 0 es
        ++ (nameBlob es ++ List.replicate (paddingOf es) 0))
      = (PFS0Magic ++ le32 es.length)
        ++ (le32 (nameTableSize es + paddingOf es) ++ (le32 0
        ++ (recordsFrom 0 0 es
        ++ (nameBlob es ++ List.replicate (paddingOf es) 0)))) by
    simp [prologueBytes, List.append_assoc]]
  exact readLe32_at _ _ _ 8 (by simp)

theorem sumSizes_take_mono (es : List partitionEntry) :
    ∀ (i j : Nat), i ≤ j → sumSizes (es.take i) ≤ sumSizes (es.take j) := by
  induction es with
  | nil => intro i j _; simp
  | cons e rest ih =>
    intro i j hij
    match i, j with
    | 0, j => simp [sumSizes]
    | i + 1, j + 1 =>
      simp only [List.take_succ_cons, sumSizes_cons]
      have := ih i j (by omega)
      omega

/-- The copy phase when the first `sizeMismatch` occurs at the entry
after `pre`: the prior payloads and the mismatching entry's bytes are
written, the error carries the expected and actual counts, and the
entries after it are not processed. -/
theorem copyAll_mismatch (fs : FileSystem) (bs : Nat) (hbs : 0 < bs) :
    ∀ (pre : List partitionEntry) (e : partitionEntry)
      (post : List partitionEntry) (out : List Nat) (c : List Nat),
      contentsMatch fs pre → offsetsFrom out.length (pre ++ e :: post) →
      out.length + sumSizes (pre ++ e :: post) < 2 ^ 63 →
      fs e.path = some c → c.length < 2 ^ 64 → c.length ≠ e.size →
      copyAll fs bs (pre ++ e :: post) out
        = (out ++ (payloads fs pre ++ c),
           some (.sizeMismatch e.path e.size c.length)) := by
  intro pre
  induction pre with
  | nil =>
    intro e post out c _ hoff hb hc hclen hne
    obtain ⟨ho1, _⟩ := hoff
    simp only [List.nil_append] at hb ⊢
    rw [sumSizes_cons] at hb
    simp only [copyAll]
    unfold copyFileToNSP
    rw [hc]
    simp only
    rw [if_neg (by omega)]
    rw [ho1, copyLoop_closed bs hbs c.length c out (le_refl _)]
    simp only
    rw [Nat.mod_eq_of_lt hclen]
    rw [if_pos hne]
    simp [payloads]
  | cons p pre ih =>
    intro e post out c hm hoff hb hc hclen hne
    obtain ⟨hsome, hlen⟩ := hm p (by simp)
    obtain ⟨cp, hcp⟩ := Option.isSome_iff_exists.mp hsome
    rw [hcp] at hlen
    simp only [Option.getD_some] at hlen
    obtain ⟨ho1, ho2⟩ := hoff
    rw [List.cons_append, sumSizes_cons] at hb
    rw [List.cons_append]
    simp only [copyAll]
    rw [copyFileToNSP_ok fs bs out p cp hbs hcp hlen ho1 (by omega)
      (by omega)]
    simp only
    have hout : (out ++ cp).length = out.length + p.size := by
      simp [hlen]
    rw [ih e post (out ++ cp) c (fun y hy => hm y (by simp [hy]))
      (by rw [hout]; exact ho2) (by rw [hout]; omega) hc hclen hne]
    have hpay : payloads fs (p :: pre) = cp ++ payloads fs pre := by
      simp [payloads, hcp]
    rw [hpay]
    simp [List.append_assoc]

/-! ## Claim theorems -/

/-- Claim C7: for every path, a failed stat makes `AddFile` return an
error and leave the entry list unchanged; a successful stat appends
exactly one entry whose stored name is the path's base name and whose
size is the size reported by stat, with no effect on the filesystem (the
model's `AddFile` does not touch `fs` at all). -/
theorem claim7_addFile (fs : FileSystem) (b : Builder) (path : Path) :
    (fs path = none → AddFile fs b path = (b, some (.statFailed path)))
    ∧ (∀ c : List Nat, fs path = some c → c.length < 2 ^ 64 →
        AddFile fs b path
          = ({ b with partEntries := b.partEntries
                ++ [{ path := path, name := baseName path,
                      size := c.length, dataOffset := 0,
                      stringOffset := 0 }] }, none)) := by
  constructor
  · intro h
    unfold AddFile
    rw [h]
  · intro c hc hlt
    unfold AddFile
    rw [hc]
    simp [Nat.mod_eq_of_lt]
    omega

/-- Witness for C7 at concrete inputs: a missing path and a present
2-byte file. -/
theorem claim7_witness :
    scenarioFs [99] = none
    ∧ AddFile scenarioFs { BufferSize := 4096, partEntries := [] } [99]
        = ({ BufferSize := 4096, partEntries := [] },
           some (.statFailed [99]))
    ∧ scenarioFs aPath = some [170, 187]
    ∧ AddFile scenarioFs { BufferSize := 4096, partEntries := [] } aPath
        = ({ BufferSize := 4096,
             partEntries := [{ path := aPath, name := baseName aPath,
                               size := 2, dataOffset := 0,
                               stringOffset := 0 }] }, none) :=
  ⟨by decide,
   (claim7_addFile scenarioFs { BufferSize := 4096, partEntries := [] }
     [99]).1 (by decide),
   by decide,
   (claim7_addFile scenarioFs { BufferSize := 4096, partEntries := [] }
     aPath).2 [170, 187] (by decide) (by decide)⟩

/-- Claim C8: `Build` with zero registered entries returns the
empty-input error immediately and never creates the output file (the
outcome's file component is `none`). -/
theorem claim8_empty_build (fs : FileSystem) (b : Builder)
    (h : b.partEntries = []) :
    Build fs b = ⟨none, some .emptyInput⟩ := by
  unfold Build
  rw [if_pos (by simp [h])]

/-- Witness for C8: an empty builder. -/
theorem claim8_witness :
    ({ BufferSize := 4096, partEntries := [] } : Builder).partEntries = []
    ∧ Build scenarioFs { BufferSize := 4096, partEntries := [] }
        = ⟨none, some .emptyInput⟩ :=
  ⟨rfl, claim8_empty_build scenarioFs _ rfl⟩

/-- Claim C9: the progress bar at `processed = 50`, `total = 200`,
`width = 50` shows 25% with 12 filled and 38 blank cells, and a zero
total is replaced by 1 before dividing. -/
theorem claim9_progress_bar :
    filledCells 50 200 50 = 12
    ∧ blankCells 50 200 50 = 38
    ∧ percentOf 50 200 * 100 = 25
    ∧ effectiveTotal 0 = 1
    ∧ (∀ (c : Nat) (w : ℤ), filledCells c 0 w = filledCells c 1 w) := by
  refine ⟨?_, ?_, ?_, rfl, ?_⟩
  · norm_num [filledCells, percentOf, effectiveTotal, truncToInt]
  · norm_num [blankCells, filledCells, percentOf, effectiveTotal,
      truncToInt]
  · norm_num [percentOf, effectiveTotal]
  · intro c w
    simp [filledCells, percentOf, effectiveTotal]

/-- Claim C10: for a non-negative width the filled-cell count is between
0 and the width; once the processed count exceeds the total the bar is
fully filled; the blank-cell count is never negative. -/
theorem claim10_filled_range (c t : Nat) (w : ℤ) (hw : 0 ≤ w) :
    0 ≤ filledCells c t w
    ∧ filledCells c t w ≤ w
    ∧ (t < c → filledCells c t w = w)
    ∧ 0 ≤ blankCells c t w := by
  have het : (1 : ℚ) ≤ (effectiveTotal t : ℚ) := by
    unfold effectiveTotal
    split
    · norm_num
    · exact_mod_cast Nat.one_le_iff_ne_zero.mpr (by assumption)
  have hp0 : 0 ≤ percentOf c t := by
    unfold percentOf
    positivity
  have hq0 : 0 ≤ percentOf c t * (w : ℚ) := by
    have : (0 : ℚ) ≤ (w : ℚ) := by exact_mod_cast hw
    positivity
  have htr : truncToInt (percentOf c t * (w : ℚ))
      = ⌊percentOf c t * (w : ℚ)⌋ := by
    unfold truncToInt
    rw [if_neg (not_lt.mpr hq0)]
  have hfl : 0 ≤ filledCells c t w := by
    unfold filledCells
    rw [htr]
    exact le_min (Int.floor_nonneg.mpr hq0) hw
  have hle : filledCells c t w ≤ w := min_le_right _ _
  refine ⟨hfl, hle, ?_, ?_⟩
  · intro htc
    have hetc : (effectiveTotal t : ℚ) ≤ (c : ℚ) := by
      unfold effectiveTotal
      split
      · exact_mod_cast Nat.one_le_iff_ne_zero.mpr (by omega)
      · exact_mod_cast Nat.le_of_lt htc
    have hp1 : (1 : ℚ) ≤ percentOf c t := by
      unfold percentOf
      rw [le_div_iff₀ (by linarith)]
      linarith
    have hqw : (w : ℚ) ≤ percentOf c t * (w : ℚ) := by
      have hwq : (0 : ℚ) ≤ (w : ℚ) := by exact_mod_cast hw
      nlinarith
    have hfw : w ≤ truncToInt (percentOf c t * (w : ℚ)) := by
      rw [htr]
      exact Int.le_floor.mpr hqw
    unfold filledCells
    rw [htr] at hfw ⊢
    omega
  · unfold blankCells
    omega

/-- Witness for C10 at `processed = 50`, `total = 200`, `width = 50`. -/
theorem claim10_witness :
    (0 : ℤ) ≤ 50
    ∧ (0 ≤ filledCells 50 200 50
       ∧ filledCells 50 200 50 ≤ 50
       ∧ (200 < 50 → filledCells 50 200 50 = 50)
       ∧ 0 ≤ blankCells 50 200 50) :=
  ⟨by decide, claim10_filled_range 50 200 50 (by decide)⟩

/-- Claim C2: for every entry list (as `Build` passes it, sorted), the
generated header is the 16-byte prologue (magic `PFS0`, LE entry count,
LE declared name-table size = names plus padding, zero word), then one
24-byte record per entry in sorted order (LE u64 relative data offset =
sum of prior sizes, LE u64 size, LE u32 name-table offset = sum of
`len(name)+1` over prior entries, zero word), then the packed
null-terminated names, then zero padding; its length is
`16 + 24*N + Σ(len(name)+1)` rounded up to a multiple of 16, hence a
multiple of 16. -/
theorem claim2_header_layout (es0 : List partitionEntry)
    (hnts : nameTableSize (sortEntries es0) < 2 ^ 32) :
    (generateHeader (sortEntries es0)).1
        = prologueBytes (sortEntries es0).length
            (nameTableSize (sortEntries es0) + paddingOf (sortEntries es0))
          ++ (recordsSpec 0 0 (sortEntries es0)
          ++ (nameBlob (sortEntries es0)
          ++ List.replicate (paddingOf (sortEntries es0)) 0))
    ∧ (generateHeader (sortEntries es0)).1.length
        = roundUp16 (16 + 24 * (sortEntries es0).length
            + nameTableSize (sortEntries es0))
    ∧ (generateHeader (sortEntries es0)).1.length % 16 = 0 := by
  refine ⟨?_, ?_, ?_⟩
  · rw [generateHeader_fst _ hnts,
      recordsFrom_eq_recordsSpec (sortEntries es0) 0 0 0 0 rfl rfl]
  · rw [generateHeader_length _ hnts]
    simp only [headerSizeOf, paddingOf, roundUp16]
    split_ifs with h
    · omega
    · omega
  · rw [generateHeader_length _ hnts]
    simp only [headerSizeOf, paddingOf]
    split_ifs with h
    · omega
    · omega

/-- Witness for C2 on the two-file scenario. -/
theorem claim2_witness :
    nameTableSize (sortEntries scenarioBuilder.partEntries) < 2 ^ 32
    ∧ ((generateHeader (sortEntries scenarioBuilder.partEntries)).1
        = prologueBytes (sortEntries scenarioBuilder.partEntries).length
            (nameTableSize (sortEntries scenarioBuilder.partEntries)
              + paddingOf (sortEntries scenarioBuilder.partEntries))
          ++ (recordsSpec 0 0 (sortEntries scenarioBuilder.partEntries)
          ++ (nameBlob (sortEntries scenarioBuilder.partEntries)
          ++ List.replicate
              (paddingOf (sortEntries scenarioBuilder.partEntries)) 0))
      ∧ (generateHeader (sortEntries scenarioBuilder.partEntries)).1.length
          = roundUp16 (16 + 24 * (sortEntries scenarioBuilder.partEntries).length
              + nameTableSize (sortEntries scenarioBuilder.partEntries))
      ∧ (generateHeader (sortEntries scenarioBuilder.partEntries)).1.length % 16
          = 0) :=
  ⟨by decide, claim2_header_layout scenarioBuilder.partEntries (by decide)⟩

/-- Claim C3: after header generation the absolute data offsets of the
(sorted) entries are contiguous — each offset is the previous offset plus
the previous size, the first offset is the padded header size — and they
are monotonically increasing. -/
theorem claim3_offsets_contiguous (es0 : List partitionEntry)
    (hb : headerSizeOf (sortEntries es0) + sumSizes (sortEntries es0)
      < 2 ^ 64) :
    (∀ i : Nat, i + 1 < ((generateHeader (sortEntries es0)).2).length →
      (((generateHeader (sortEntries es0)).2).getD (i + 1) default).dataOffset
        = (((generateHeader (sortEntries es0)).2).getD i default).dataOffset
          + (((generateHeader (sortEntries es0)).2).getD i default).size)
    ∧ (0 < ((generateHeader (sortEntries es0)).2).length →
        (((generateHeader (sortEntries es0)).2).getD 0 default).dataOffset
          = headerSizeOf (sortEntries es0))
    ∧ (∀ i j : Nat, i ≤ j → j < ((generateHeader (sortEntries es0)).2).length →
        (((generateHeader (sortEntries es0)).2).getD i default).dataOffset
          ≤ (((generateHeader (sortEntries es0)).2).getD j default).dataOffset) := by
  rw [generateHeader_snd]
  have hoff : offsetsFrom (headerSizeOf (sortEntries es0))
      (updateEntries (headerSizeOf (sortEntries es0)) 0 0
        (sortEntries es0)) := by
    have h := offsetsFrom_updateEntries (sortEntries es0)
      (headerSizeOf (sortEntries es0)) 0 0 (by omega)
    simpa using h
  refine ⟨?_, ?_, ?_⟩
  · intro i hi
    rw [offsetsFrom_getD _ _ _ default hoff (by simpa using hi),
      offsetsFrom_getD _ _ _ default hoff
        (by simp only [updateEntries_length] at hi ⊢; omega),
      sumSizes_take_succ _ i default
        (by simp only [updateEntries_length] at hi ⊢; omega)]
    omega
  · intro h0
    rw [offsetsFrom_getD _ _ _ default hoff (by simpa using h0)]
    simp [sumSizes]
  · intro i j hij hj
    rw [offsetsFrom_getD _ _ _ default hoff
        (by simp only [updateEntries_length] at hj ⊢; omega),
      offsetsFrom_getD _ _ _ default hoff (by simpa using hj)]
    have := sumSizes_take_mono
      (updateEntries (headerSizeOf (sortEntries es0)) 0 0 (sortEntries es0))
      i j hij
    omega

/-- Witness for C3 on the two-file scenario. -/
theorem claim3_witness :
    headerSizeOf (sortEntries scenarioBuilder.partEntries)
        + sumSizes (sortEntries scenarioBuilder.partEntries) < 2 ^ 64
    ∧ ((∀ i : Nat,
        i + 1 < ((generateHeader (sortEntries scenarioBuilder.partEntries)).2).length →
        (((generateHeader (sortEntries scenarioBuilder.partEntries)).2).getD (i + 1) default).dataOffset
          = (((generateHeader (sortEntries scenarioBuilder.partEntries)).2).getD i default).dataOffset
            + (((generateHeader (sortEntries scenarioBuilder.partEntries)).2).getD i default).size)
      ∧ (0 < ((generateHeader (sortEntries scenarioBuilder.partEntries)).2).length →
          (((generateHeader (sortEntries scenarioBuilder.partEntries)).2).getD 0 default).dataOffset
            = headerSizeOf (sortEntries scenarioBuilder.partEntries))
      ∧ (∀ i j : Nat, i ≤ j →
          j < ((generateHeader (sortEntries scenarioBuilder.partEntries)).2).length →
          (((generateHeader (sortEntries scenarioBuilder.partEntries)).2).getD i default).dataOffset
            ≤ (((generateHeader (sortEntries scenarioBuilder.partEntries)).2).getD j default).dataOffset)) :=
  ⟨by decide, claim3_offsets_contiguous scenarioBuilder.partEntries (by decide)⟩

set_option maxRecDepth 8192 in
/-- Counterexample for C5: the two distinct files `"x/a"` and `"y/a"`
have the same base name `"a"`, so after sorting the stored names are NOT
strictly ascending (two equal adjacent names), although both stats
succeeded and the declared entry count is 2. -/
theorem claim5_counterexample :
    collideBuilder.partEntries.length = 2
    ∧ (collideBuilder.partEntries.map (fun e => e.path)).Nodup
    ∧ readLe32 (buildHeader collideBuilder) 4 = 2
    ∧ ¬ List.Chain' entryLt (sortEntries collideBuilder.partEntries) := by
  refine ⟨by decide, by decide, by decide, ?_⟩
  intro hch
  rw [show sortEntries collideBuilder.partEntries
      = [{ path := [120, 47, 97], name := [97], size := 1,
           dataOffset := 0, stringOffset := 0 },
         { path := [121, 47, 97], name := [97], size := 1,
           dataOffset := 0, stringOffset := 0 }] from by decide] at hch
  rw [List.chain'_cons] at hch
  exact absurd hch.1 (by decide)

/-- Claim C5 as amended: the declared entry count equals the number of
registered inputs, the sorted entries are in non-decreasing stored-name
order, and when the stored names are pairwise distinct the order is
strictly ascending and independent of the registration order. -/
theorem claim5_amended (b : Builder)
    (_hne : b.partEntries ≠ [])
    (hnts : nameTableSize b.partEntries < 2 ^ 32) :
    readLe32 (buildHeader b) 4 = b.partEntries.length
    ∧ List.Chain' entryLe (sortEntries b.partEntries)
    ∧ (List.Pairwise (fun a c : partitionEntry => a.name ≠ c.name)
          b.partEntries →
        List.Chain' entryLt (sortEntries b.partEntries)
        ∧ ∀ es1 : List partitionEntry, es1.Perm b.partEntries →
            sortEntries es1 = sortEntries b.partEntries) := by
  have hperm := sortEntries_perm b.partEntries
  have hnts' : nameTableSize (sortEntries b.partEntries) < 2 ^ 32 := by
    rw [nameTableSize_perm _ _ hperm]
    exact hnts
  refine ⟨?_, ?_, ?_⟩
  · unfold buildHeader
    rw [generateHeader_count_field _ hnts', sortEntries_length]
    have h1 : b.partEntries.length ≤ nameTableSize b.partEntries := by
      rw [← nameTableSize_perm _ _ hperm, ← sortEntries_length]
      exact length_le_nameTableSize _
    exact Nat.mod_eq_of_lt (by omega)
  · exact (sortEntries_sorted b.partEntries).chain'
  · intro hnd
    have hnd' : List.Pairwise
        (fun a c : partitionEntry => a.name ≠ c.name)
        (sortEntries b.partEntries) :=
      (List.Perm.pairwise_iff
        (fun {x y : partitionEntry} (h : x.name ≠ y.name) => h.symm)
        hperm).mpr hnd
    refine ⟨?_, ?_⟩
    · exact (sorted_strict_of_nodup _ (sortEntries_sorted _) hnd').chain'
    · intro es1 hp
      exact sortEntries_eq_of_perm es1 b.partEntries hp
        ((List.Perm.pairwise_iff
          (fun {x y : partitionEntry} (h : x.name ≠ y.name) => h.symm)
          hp).mpr hnd)

/-- Witness for the amended C5 on the two-file scenario. -/
theorem claim5_witness :
    scenarioBuilder.partEntries ≠ []
    ∧ nameTableSize scenarioBuilder.partEntries < 2 ^ 32
    ∧ (readLe32 (buildHeader scenarioBuilder) 4
          = scenarioBuilder.partEntries.length
      ∧ List.Chain' entryLe (sortEntries scenarioBuilder.partEntries)
      ∧ (List.Pairwise (fun a c : partitionEntry => a.name ≠ c.name)
            scenarioBuilder.partEntries →
          List.Chain' entryLt (sortEntries scenarioBuilder.partEntries)
          ∧ ∀ es1 : List partitionEntry,
              es1.Perm scenarioBuilder.partEntries →
              sortEntries es1 = sortEntries scenarioBuilder.partEntries)) :=
  ⟨by decide, by decide,
   claim5_amended scenarioBuilder (by decide) (by decide)⟩

/-- Claim C6: when the copy loop of some entry finishes streaming but the
byte count differs from the recorded size (all earlier entries having
copied cleanly), `Build` returns the size-mismatch error carrying the
path with the expected and actual counts, processes none of the remaining
entries, and leaves the partially written output file in place (header,
prior payloads, and the mismatching entry's streamed bytes). -/
theorem claim6_size_mismatch (fs : FileSystem) (b : Builder)
    (pre : List partitionEntry) (e : partitionEntry)
    (post : List partitionEntry) (c : List Nat)
    (hsplit : (generateHeader (sortEntries b.partEntries)).2
      = pre ++ e :: post)
    (hbs : 0 < b.BufferSize)
    (hm : contentsMatch fs pre)
    (hc : fs e.path = some c)
    (hclen : c.length < 2 ^ 64)
    (hmm : c.length ≠ e.size)
    (hb : headerSizeOf (sortEntries b.partEntries)
      + sumSizes (sortEntries b.partEntries) < 2 ^ 63)
    (hnts : nameTableSize (sortEntries b.partEntries) < 2 ^ 32) :
    Build fs b
      = ⟨some ((generateHeader (sortEntries b.partEntries)).1
          ++ (payloads fs pre ++ c)),
         some (.sizeMismatch e.path e.size c.length)⟩ := by
  have hne : ¬ b.partEntries.length = 0 := by
    intro h0
    have h1 : (sortEntries b.partEntries).length = 0 := by
      rw [sortEntries_length]
      exact h0
    have h2 := generateHeader_snd (sortEntries b.partEntries)
    rw [hsplit] at h2
    have h3 : (pre ++ e :: post).length
        = (updateEntries (headerSizeOf (sortEntries b.partEntries)) 0 0
            (sortEntries b.partEntries)).length := by
      rw [h2]
    rw [updateEntries_length, h1] at h3
    simp at h3
  unfold Build
  rw [if_neg hne]
  simp only
  rw [show generateHeader (sortEntries b.partEntries)
      = ((generateHeader (sortEntries b.partEntries)).1,
         (generateHeader (sortEntries b.partEntries)).2) from rfl]
  simp only
  rw [hsplit]
  have hlen : (generateHeader (sortEntries b.partEntries)).1.length
      = headerSizeOf (sortEntries b.partEntries) :=
    generateHeader_length _ hnts
  have hoff : offsetsFrom
      ((generateHeader (sortEntries b.partEntries)).1.length)
      (pre ++ e :: post) := by
    rw [hlen, ← hsplit, generateHeader_snd]
    have h := offsetsFrom_updateEntries (sortEntries b.partEntries)
      (headerSizeOf (sortEntries b.partEntries)) 0 0 (by omega)
    simpa using h
  have hsum : sumSizes (pre ++ e :: post)
      = sumSizes (sortEntries b.partEntries) := by
    rw [← hsplit, generateHeader_snd, updateEntries_sumSizes]
  rw [copyAll_mismatch fs b.BufferSize hbs pre e post _ c hm hoff
    (by rw [hlen, hsum]; omega) hc hclen hmm]

/-- Witness for C6: the single registered file recorded at 3 bytes that
holds only 2 bytes at build time. -/
theorem claim6_witness :
    (generateHeader (sortEntries shrunkBuilder.partEntries)).2
        = [] ++ ({ path := aPath, name := aPath, size := 3,
                   dataOffset := 48, stringOffset := 0 } : partitionEntry)
          :: []
    ∧ shrunkFs aPath = some [170, 187]
    ∧ ([170, 187] : List Nat).length ≠ 3
    ∧ Build shrunkFs shrunkBuilder
        = ⟨some ((generateHeader (sortEntries shrunkBuilder.partEntries)).1
            ++ (payloads shrunkFs [] ++ [170, 187])),
           some (.sizeMismatch aPath 3 2)⟩ :=
  ⟨by decide, by decide, by decide,
   claim6_size_mismatch shrunkFs shrunkBuilder []
     { path := aPath, name := aPath, size := 3,
       dataOffset := 48, stringOffset := 0 } [] [170, 187]
     (by decide) (by decide) (by decide) (by decide) (by decide)
     (by decide) (by decide) (by decide)⟩

set_option maxRecDepth 8192 in
/-- Counterexample for C4: in the two-file scenario the header does NOT
declare name-table size 12 — the field at offset 8 holds the name bytes
plus padding, 12 + 4 = 16. -/
theorem claim4_counterexample :
    readLe32 (buildHeader scenarioBuilder) 8 = 16
    ∧ ¬ readLe32 (buildHeader scenarioBuilder) 8 = 12 := by
  refine ⟨by decide, by decide⟩

set_option maxRecDepth 8192 in
/-- Claim C4 as amended: with `"b.bin"` (3 bytes `01 02 03`) and
`"a.bin"` (2 bytes `AA BB`) added in that order, `Build` sorts them to
`a.bin, b.bin`; the header declares entry count 2 and name-table size 16
(the 12 name bytes plus the 4 bytes of padding); the raw name-table size
is 12, the padding 4 and the final header size 80; `a.bin` gets absolute
data offset 80 with size 2, `b.bin` offset 82 with size 3; the build
succeeds and the output file is 85 bytes long. -/
theorem claim4_amended :
    (sortEntries scenarioBuilder.partEntries).map (fun e => e.name)
        = [aPath, bPath]
    ∧ readLe32 (buildHeader scenarioBuilder) 4 = 2
    ∧ readLe32 (buildHeader scenarioBuilder) 8 = 16
    ∧ nameTableSize (sortEntries scenarioBuilder.partEntries) = 12
    ∧ paddingOf (sortEntries scenarioBuilder.partEntries) = 4
    ∧ (buildHeader scenarioBuilder).length = 80
    ∧ (buildEntries scenarioBuilder).map (fun e => (e.dataOffset, e.size))
        = [(80, 2), (82, 3)]
    ∧ (Build scenarioFs scenarioBuilder).err = none
    ∧ ((Build scenarioFs scenarioBuilder).file.getD []).length = 85 := by
  refine ⟨by decide, by decide, by decide, by decide, by decide, by decide,
    by decide, by decide, by decide⟩

@[simp] theorem prologueBytes_length (n d : Nat) :
    (prologueBytes n d).length = 16 := by
  simp [prologueBytes]

/-- Claim C1: for a non-empty builder whose source files are unchanged
between `AddFile` and `Build` (each present in `fs` with length equal to
the recorded size), `Build` succeeds and the output file is exactly the
generated header followed by each entry's payload bytes in offset order;
slicing the output at each record's data offset for its recorded size
yields the entry's original file bytes, and the record's name-table
offset locates its stored name (the name bytes followed by a null
terminator) inside the name table at `16 + 24*N + stringOffset`. -/
theorem claim1_roundtrip (fs : FileSystem) (b : Builder)
    (hne : b.partEntries ≠ [])
    (hbs : 0 < b.BufferSize)
    (hm : contentsMatch fs b.partEntries)
    (hb : headerSizeOf (sortEntries b.partEntries)
      + sumSizes b.partEntries < 2 ^ 63)
    (hnts : nameTableSize b.partEntries < 2 ^ 32) :
    Build fs b = ⟨some (buildHeader b
        ++ payloads fs (sortEntries b.partEntries)), none⟩
    ∧ ∀ i : Nat, i < (buildEntries b).length →
        sliceAt (buildHeader b ++ payloads fs (sortEntries b.partEntries))
            (((buildEntries b).getD i default).dataOffset)
            (((buildEntries b).getD i default).size)
          = (fs ((buildEntries b).getD i default).path).getD []
        ∧ sliceAt (buildHeader b ++ payloads fs (sortEntries b.partEntries))
            (16 + 24 * (buildEntries b).length
              + ((buildEntries b).getD i default).stringOffset)
            (((buildEntries b).getD i default).name.length)
          = ((buildEntries b).getD i default).name
        ∧ (buildHeader b
            ++ payloads fs (sortEntries b.partEntries)).getD
            (16 + 24 * (buildEntries b).length
              + ((buildEntries b).getD i default).stringOffset
              + ((buildEntries b).getD i default).name.length) 0 = 0 := by
  have hperm := sortEntries_perm b.partEntries
  have hm' : contentsMatch fs (sortEntries b.partEntries) :=
    contentsMatch_perm fs _ _ hperm.symm hm
  have hsum : sumSizes (sortEntries b.partEntries)
      = sumSizes b.partEntries := sumSizes_perm _ _ hperm
  have hnts' : nameTableSize (sortEntries b.partEntries) < 2 ^ 32 := by
    rw [nameTableSize_perm _ _ hperm]
    exact hnts
  have hb' : headerSizeOf (sortEntries b.partEntries)
      + sumSizes (sortEntries b.partEntries) < 2 ^ 63 := by
    rw [hsum]
    exact hb
  constructor
  · exact Build_ok fs b hne hbs hm' hb' hnts'
  · intro i hi
    have hsnd : buildEntries b
        = updateEntries (headerSizeOf (sortEntries b.partEntries)) 0 0
            (sortEntries b.partEntries) :=
      generateHeader_snd (sortEntries b.partEntries)
    have hoff : offsetsFrom (headerSizeOf (sortEntries b.partEntries))
        (buildEntries b) := by
      rw [hsnd]
      simpa using offsetsFrom_updateEntries (sortEntries b.partEntries)
        (headerSizeOf (sortEntries b.partEntries)) 0 0 (by omega)
    have hnameoff : nameOffsetsFrom 0 (buildEntries b) := by
      rw [hsnd]
      exact nameOffsetsFrom_updateEntries (sortEntries b.partEntries)
        (headerSizeOf (sortEntries b.partEntries)) 0 0 (by omega)
    have hmatch' : contentsMatch fs (buildEntries b) := by
      rw [hsnd]
      exact updateEntries_contentsMatch fs _ 0 0 _ hm'
    have hlen' : (buildEntries b).length
        = (sortEntries b.partEntries).length := by
      rw [hsnd, updateEntries_length]
    have hhdrlen : (buildHeader b).length
        = headerSizeOf (sortEntries b.partEntries) :=
      generateHeader_length (sortEntries b.partEntries) hnts'
    have hpay : payloads fs (sortEntries b.partEntries)
        = payloads fs (buildEntries b) := by
      rw [hsnd, updateEntries_payloads]
    have hntseq : nameTableSize (buildEntries b)
        = nameTableSize (sortEntries b.partEntries) := by
      rw [hsnd, updateEntries_nameTableSize]
    have hblob : nameBlob (buildEntries b)
        = nameBlob (sortEntries b.partEntries) := by
      rw [hsnd, updateEntries_nameBlob]
    have hdOff : ((buildEntries b).getD i default).dataOffset
        = headerSizeOf (sortEntries b.partEntries)
          + sumSizes ((buildEntries b).take i) :=
      offsetsFrom_getD _ _ _ _ hoff hi
    have hsOff : ((buildEntries b).getD i default).stringOffset
        = nameTableSize ((buildEntries b).take i) := by
      simpa using nameOffsetsFrom_getD _ _ _ default hnameoff hi
    have htake1 : nameTableSize ((buildEntries b).take (i + 1))
        = nameTableSize ((buildEntries b).take i)
          + (((buildEntries b).getD i default).name.length + 1) :=
      nameTableSize_take_succ _ i default hi
    have htake2 : nameTableSize ((buildEntries b).take (i + 1))
        ≤ nameTableSize (buildEntries b) :=
      nameTableSize_take_le _ _
    have hhdr : buildHeader b
        = prologueBytes (sortEntries b.partEntries).length
            (nameTableSize (sortEntries b.partEntries)
              + paddingOf (sortEntries b.partEntries))
          ++ (recordsFrom 0 0 (sortEntries b.partEntries)
          ++ (nameBlob (sortEntries b.partEntries)
          ++ List.replicate (paddingOf (sortEntries b.partEntries)) 0)) :=
      generateHeader_fst (sortEntries b.partEntries) hnts'
    have hHS : headerSizeOf (sortEntries b.partEntries)
        = 16 + (sortEntries b.partEntries).length * 24
          + nameTableSize (sortEntries b.partEntries)
          + paddingOf (sortEntries b.partEntries) := rfl
    refine ⟨?_, ?_, ?_⟩
    · rw [hdOff,
        sliceAt_append_right (buildHeader b) _ _
          (sumSizes ((buildEntries b).take i)) _ (by rw [hhdrlen]),
        hpay]
      exact payloads_slice fs (buildEntries b) i default hi hmatch'
    · rw [hsOff,
        sliceAt_append_left (buildHeader b) _ _ _
          (by rw [hhdrlen, hHS, ← hntseq, ← hlen']; omega),
        hhdr,
        sliceAt_append_right
          (prologueBytes (sortEntries b.partEntries).length
            (nameTableSize (sortEntries b.partEntries)
              + paddingOf (sortEntries b.partEntries))) _ _
          (24 * (buildEntries b).length
            + nameTableSize ((buildEntries b).take i)) _
          (by simp; omega),
        sliceAt_append_right
          (recordsFrom 0 0 (sortEntries b.partEntries)) _ _
          (nameTableSize ((buildEntries b).take i)) _
          (by rw [recordsFrom_length, ← hlen']; ring),
        sliceAt_append_left _ _ _ _
          (by rw [nameBlob_length, ← hntseq]; omega),
        ← hblob]
      exact (nameBlob_slice (buildEntries b) i default hi).1
    · rw [hsOff,
        getD_append_left' (buildHeader b) _ _
          (by rw [hhdrlen, hHS, ← hntseq, ← hlen']; omega),
        hhdr,
        getD_append_right'
          (prologueBytes (sortEntries b.partEntries).length
            (nameTableSize (sortEntries b.partEntries)
              + paddingOf (sortEntries b.partEntries))) _ _
          (24 * (buildEntries b).length
            + nameTableSize ((buildEntries b).take i)
            + ((buildEntries b).getD i default).name.length)
          (by simp; omega),
        getD_append_right'
          (recordsFrom 0 0 (sortEntries b.partEntries)) _ _
          (nameTableSize ((buildEntries b).take i)
            + ((buildEntries b).getD i default).name.length)
          (by rw [recordsFrom_length, ← hlen']; ring_nf),
        getD_append_left' _ _ _
          (by rw [nameBlob_length, ← hntseq]; omega),
        ← hblob]
      exact (nameBlob_slice (buildEntries b) i default hi).2

set_option maxRecDepth 8192 in
/-- Witness for C1 on the two-file scenario. -/
theorem claim1_witness :
    scenarioBuilder.partEntries ≠ []
    ∧ 0 < scenarioBuilder.BufferSize
    ∧ contentsMatch scenarioFs scenarioBuilder.partEntries
    ∧ headerSizeOf (sortEntries scenarioBuilder.partEntries)
        + sumSizes scenarioBuilder.partEntries < 2 ^ 63
    ∧ nameTableSize scenarioBuilder.partEntries < 2 ^ 32
    ∧ (Build scenarioFs scenarioBuilder
        = ⟨some (buildHeader scenarioBuilder
            ++ payloads scenarioFs (sortEntries scenarioBuilder.partEntries)),
           none⟩
      ∧ ∀ i : Nat, i < (buildEntries scenarioBuilder).length →
          sliceAt (buildHeader scenarioBuilder
              ++ payloads scenarioFs
                (sortEntries scenarioBuilder.partEntries))
              (((buildEntries scenarioBuilder).getD i default).dataOffset)
              (((buildEntries scenarioBuilder).getD i default).size)
            = (scenarioFs
                ((buildEntries scenarioBuilder).getD i default).path).getD []
          ∧ sliceAt (buildHeader scenarioBuilder
              ++ payloads scenarioFs
                (sortEntries scenarioBuilder.partEntries))
              (16 + 24 * (buildEntries scenarioBuilder).length
                + ((buildEntries scenarioBuilder).getD i default).stringOffset)
              (((buildEntries scenarioBuilder).getD i default).name.length)
            = ((buildEntries scenarioBuilder).getD i default).name
          ∧ (buildHeader scenarioBuilder
              ++ payloads scenarioFs
                (sortEntries scenarioBuilder.partEntries)).getD
              (16 + 24 * (buildEntries scenarioBuilder).length
                + ((buildEntries scenarioBuilder).getD i default).stringOffset
                + ((buildEntries scenarioBuilder).getD i default).name.length)
              0 = 0) :=
  ⟨by decide, by decide, by decide, by decide, by decide,
   claim1_roundtrip scenarioFs scenarioBuilder (by decide) (by decide)
     (by decide) (by decide) (by decide)⟩

end Nsp
